import Mathlib

/-!
# Concurrent system monitor: collectors, worker channels and report rendering

A shallow embedding of the metric computations, the worker channels and the
report rendering of `stats_functions.c`, of the loop body of `main.c`, and
theorems about them.

Conventions of the embedding

* `unsigned long` is a natural number below `ULONG_MOD = 2 ^ 64` (LP64 Linux);
  every operation is followed by an explicit reduction modulo `ULONG_MOD`.
* `double` is IEEE 754 binary64 in the rounding mode a C program starts in (to
  nearest, ties to even), every operation rounded on its own, as on x86-64 and
  AArch64 Linux. A `double` is the rational number it denotes, and every
  operation, conversion and decimal constant that yields a `double` is followed
  by the rounding `fl`. Functions that take a `double` are defined on every
  rational number; the machine passes them values that `fl` leaves unchanged.
  Infinities, NaN and the sign of zero are not represented: `fl` rounds as if
  the exponent had no upper limit, which is the machine result whenever the
  rounded value is below `2 ^ 1024`.
* The conversion of a `double` to `int` is truncation toward zero; the value is
  taken to fit an `int` (C leaves the conversion undefined otherwise).
* `printf("%.2f")` writes the exact value of its argument rounded to two
  decimals, ties to even, and `%lf` of `scanf` stores the `double` nearest to
  the decimal number it reads (glibc).
* `int` flags are booleans, sample counts and indices are natural numbers
  (the orchestrating loop only produces `0 ≤ i < samples`).
* Text written to standard output is a list of characters; a function that
  prints and returns yields the printed text together with its result.
* `exit(EXIT_FAILURE)` is the error branch of `Except`.
* A `char` array holds a list of characters; a text that does not fit the
  array it is built in is the result `none`.
* A worker process and its pipe are the text the worker writes, handed to the
  parser of the parent; failures of `pipe` and `fork` are left out.
-/

namespace SystemMonitor

/-! ## Machine arithmetic -/

/-- Number of values of an `unsigned long`. -/
abbrev ULONG_MOD : Nat := 2 ^ 64

/-- Largest `unsigned long`. -/
abbrev ULONG_MAX : Nat := ULONG_MOD - 1

/-- Sum of two `unsigned long` values. -/
def ulong_add (a b : Nat) : Nat := (a + b) % ULONG_MOD

/-- Difference of two `unsigned long` values (wraps around below zero). -/
def ulong_sub (a b : Nat) : Nat := (a + ULONG_MOD - b) % ULONG_MOD

/-! ## Arithmetic of `double` -/

/-- Rounding to the nearest integer, ties to the even neighbour. -/
def roundHalfEven (q : ℚ) : ℤ :=
  let f := ⌊q⌋
  let r := q - f
  if r < 1 / 2 then f else if 1 / 2 < r then f + 1 else if f % 2 = 0 then f else f + 1

/-- Number of binary digits of a natural number; the first argument bounds the recursion. -/
def bitLengthAux : Nat → Nat → Nat
  | 0, _ => 0
  | fuel + 1, n => if n = 0 then 0 else bitLengthAux fuel (n / 2) + 1

/-- Number of binary digits of a natural number. -/
def bitLength (n : Nat) : Nat := bitLengthAux n n

/-- The binary exponent of a rational number: for `q ≠ 0` the integer `e` with
`2 ^ e ≤ |q| < 2 ^ (e + 1)`. -/
def binade (q : ℚ) : ℤ :=
  let e0 : ℤ := (bitLength q.num.natAbs : ℤ) - (bitLength q.den : ℤ)
  if (2 : ℚ) ^ e0 ≤ |q| then e0 else e0 - 1

/-- The unit in the last place of the `double` format (IEEE 754 binary64) at a value: 53
significant bits, and the exponent not below -1022 (gradual underflow). -/
def ulp (q : ℚ) : ℚ := 2 ^ (max (binade q) (-1022) - 52)

/-- Rounding of a real value to `double`: the nearest multiple of the unit in the last place,
ties to the even significand (the rounding mode a C program starts in). -/
def fl (q : ℚ) : ℚ := (roundHalfEven (q / ulp q) : ℚ) * ulp q

/-- Conversion of an `unsigned long` to `double`. -/
def ulong_to_double (n : Nat) : ℚ := fl (n : ℚ)

/-- Sum of two `double` values. -/
def double_add (a b : ℚ) : ℚ := fl (a + b)

/-- Difference of two `double` values. -/
def double_sub (a b : ℚ) : ℚ := fl (a - b)

/-- Product of two `double` values. -/
def double_mul (a b : ℚ) : ℚ := fl (a * b)

/-- Quotient of two `double` values, the divisor not zero. -/
def double_div (a b : ℚ) : ℚ := fl (a / b)

/-- Value of a decimal constant of type `double`, and of a decimal text converted by
`strtod`. -/
def double_of_decimal (q : ℚ) : ℚ := fl q

/-! ## Text formatting of the C library -/

/-- The conversion `%.2f` of `printf`: sign, integer part, a point, two decimals. -/
def fmt2 (x : ℚ) : List Char :=
  let n := (roundHalfEven (|x| * 100)).toNat
  (if x < 0 then ['-'] else []) ++ Nat.toDigits 10 (n / 100)
    ++ ['.', Nat.digitChar (n % 100 / 10), Nat.digitChar (n % 10)]

/-! ## CPU usage calculator -/

/-- Embedding of `calculate_and_print_cpu_usage`: the printed line and the returned usage. -/
def calculate_and_print_cpu_usage (idle_start idle_end total_start total_end : Nat) :
    List Char × ℚ :=
  let total_diff := ulong_sub total_end total_start
  let idle_diff := ulong_sub idle_end idle_start
  let cpu_usage : ℚ :=
    if total_diff = 0 then 0
    else double_div (double_mul 100 (ulong_to_double (ulong_sub total_diff idle_diff)))
      (ulong_to_double total_diff)
  (" total CPU use = ".toList ++ fmt2 cpu_usage ++ "%\n".toList, cpu_usage)

/-! ## Counter reader -/

/-- The character class `isspace` of the C locale. -/
def isspace (c : Char) : Bool :=
  c = ' ' || c = '\t' || c = '\n' || c = '\x0b' || c = '\x0c' || c = '\r'

/-- Value of a run of decimal digits, most significant first. -/
def digitsValue (ds : List Char) : Nat :=
  ds.foldl (fun v c => v * 10 + (c.toNat - '0'.toNat)) 0

/-- Result of `strtoul` on a sign and a run of digits: out-of-range magnitudes give
`ULONG_MAX`, a minus sign negates in `unsigned long`. -/
def strtoul_value (neg : Bool) (ds : List Char) : Nat :=
  let v := digitsValue ds
  if ULONG_MAX < v then ULONG_MAX else if neg then ulong_sub 0 v else v

/-- An optional sign in front of a number: whether it is a minus, and the text after it. -/
def stripSign (s : List Char) : Bool × List Char :=
  match s with
  | [] => (false, [])
  | c :: t => if c = '-' then (true, t) else if c = '+' then (false, t) else (false, c :: t)

/-- The conversion `%lu` of `scanf`: skip white space, read an optional sign and the longest
run of decimal digits; fails when there is no digit. Yields the value and the unread input. -/
def scan_lu (s : List Char) : Option (Nat × List Char) :=
  let signed := stripSign (s.dropWhile isspace)
  let ds := signed.2.takeWhile Char.isDigit
  if ds = [] then none
  else some (strtoul_value signed.1 ds, signed.2.dropWhile Char.isDigit)

/-- At most `k` conversions `%lu`, each followed by the white-space directive of the format;
the values converted before the first failure. -/
def scanFields : Nat → List Char → List Nat
  | 0, _ => []
  | k + 1, s =>
    match scan_lu s with
    | none => []
    | some (v, rest) => v :: scanFields k (rest.dropWhile isspace)

/-- Matching of the ordinary characters of a format against the input: the unread input,
or `none` at the first mismatch. -/
def matchLiteral : List Char → List Char → Option (List Char)
  | [], s => some s
  | _ :: _, [] => none
  | l :: ls, c :: cs => if c = l then matchLiteral ls cs else none

/-- The call `sscanf(buffer, "cpu  %lu %lu %lu %lu %lu %lu %lu", ...)`: the values assigned, in
order; their number is the value `sscanf` returns (a failure before the first conversion
returns 0 or `EOF`, in both cases not 7). -/
def sscanf_cpu (buffer : List Char) : List Nat :=
  match matchLiteral "cpu".toList buffer with
  | none => []
  | some rest => scanFields 7 (rest.dropWhile isspace)

/-- Characters `fgets` stores from a non-empty stream: at most `n`, up to and including the
first newline. -/
def fgetsAux : Nat → List Char → List Char
  | 0, _ => []
  | _ + 1, [] => []
  | n + 1, c :: cs => if c = '\n' then [c] else c :: fgetsAux n cs

/-- The call `fgets(buffer, size, fp)` at the start of a stream: `none` at end of file. -/
def fgets (size : Nat) (stream : List Char) : Option (List Char) :=
  if stream = [] then none else some (fgetsAux (size - 1) stream)

/-- Process termination through `exit`: the status and the diagnostic written to `stderr`. -/
structure Exit where
  status : Nat
  diagnostic : String
  deriving DecidableEq

/-- The status `EXIT_FAILURE`. -/
abbrev EXIT_FAILURE : Nat := 1

/-- Embedding of `get_cpu_idle_total_times`. The argument is the content of `/proc/stat`
(`none` when it cannot be opened); the result is the pair `(idle_time, total_time)`. -/
def get_cpu_idle_total_times (proc_stat : Option (List Char)) : Except Exit (Nat × Nat) :=
  match proc_stat with
  | none => .error ⟨EXIT_FAILURE, "Failed to open /proc/stat"⟩
  | some fp =>
    match fgets 1024 fp with
    | none => .error ⟨EXIT_FAILURE, "Failed to read from /proc/stat"⟩
    | some buffer =>
      match sscanf_cpu buffer with
      | [t0, t1, t2, t3, t4, t5, t6] =>
        .ok (t3, ulong_add (ulong_add (ulong_add (ulong_add (ulong_add (ulong_add t0 t1) t2) t3)
          t4) t5) t6)
      | _ => .error ⟨EXIT_FAILURE, "Error: Expected to read 7 CPU time values\n"⟩

/-- A number token as `%lu` reads it: white space, an optional sign, one or more digits. -/
def IsNumberField (f : List Char) : Prop :=
  ∃ ws sg ds, f = ws ++ sg ++ ds ∧ (∀ c ∈ ws, isspace c = true)
    ∧ (sg = [] ∨ sg = ['+'] ∨ sg = ['-']) ∧ ds ≠ [] ∧ ∀ c ∈ ds, c.isDigit = true

/-- The text does not begin with a decimal digit. -/
def NoLeadingDigit (s : List Char) : Prop :=
  ∀ c, s.head? = some c → c.isDigit = false

/-- The text begins with `k` number tokens, each ending where its digits end. -/
def StartsWithFields : Nat → List Char → Prop
  | 0, _ => True
  | k + 1, s => ∃ f rest, IsNumberField f ∧ s = f ++ rest ∧ NoLeadingDigit rest
      ∧ StartsWithFields k rest

/-- The shape of buffer the counter reader accepts: `cpu`, then seven number tokens, then
anything. -/
def CounterLineShape (buffer : List Char) : Prop :=
  ∃ rest, buffer = "cpu".toList ++ rest ∧ StartsWithFields 7 rest

/-- The counter line the specification describes: `cpu`, two spaces, the values in decimal
separated by single spaces. -/
def counterLine (values : List Nat) : List Char :=
  "cpu ".toList ++ (values.map (fun v => ' ' :: Nat.toDigits 10 v)).flatten

/-- The words of a text: its maximal runs of characters that are not white space. The first
argument is the word being read. -/
def wordsAux : List Char → List Char → List (List Char)
  | cur, [] => if cur = [] then [] else [cur]
  | cur, c :: cs =>
    if isspace c then (if cur = [] then wordsAux [] cs else cur :: wordsAux [] cs)
    else wordsAux (cur ++ [c]) cs

/-- The shape of counter line the specification names: `cpu` and two spaces, followed by
exactly seven white-space separated unsigned integers. -/
def specCounterLineShape (line : List Char) : Bool :=
  match matchLiteral "cpu  ".toList line with
  | none => false
  | some rest =>
    (wordsAux [] rest).length == 7 && (wordsAux [] rest).all (fun w => w.all Char.isDigit)

/-! ## Memory statistics -/

/-- The record `MemoryStats`. -/
structure MemoryStats where
  phys_used : ℚ
  phys_total : ℚ
  virt_used : ℚ
  virt_total : ℚ
  deriving DecidableEq

/-- The fields of `struct sysinfo` the collector reads (`unsigned long`, in bytes). -/
structure SysInfo where
  totalram : Nat
  freeram : Nat
  totalswap : Nat
  freeswap : Nat
  deriving DecidableEq

/-- The factor `1.0 / (1024 * 1024 * 1024)`. -/
def bytes_to_gb : ℚ := double_div 1 (1024 * 1024 * 1024)

/-- Embedding of `gather_memory_stats`. The first argument is what `sysinfo` delivers (`none`
when the call fails); the result is the array after the store at `index`. -/
def gather_memory_stats (os : Option SysInfo) (memory_stats_array : Nat → MemoryStats)
    (index : Nat) : Except Exit (Nat → MemoryStats) :=
  match os with
  | none => .error ⟨EXIT_FAILURE, "sysinfo: error reading system statistics"⟩
  | some info =>
    .ok (Function.update memory_stats_array index
      { phys_used :=
          double_mul (ulong_to_double (ulong_sub info.totalram info.freeram)) bytes_to_gb
        phys_total := double_mul (ulong_to_double info.totalram) bytes_to_gb
        virt_used :=
          double_mul
            (ulong_to_double
              (ulong_sub (ulong_add (ulong_sub info.totalram info.freeram) info.totalswap)
                info.freeswap))
            bytes_to_gb
        virt_total :=
          double_mul (ulong_to_double (ulong_add info.totalram info.totalswap)) bytes_to_gb })

/-! ## Rendering of the memory block -/

/-- Conversion of a `double` to `int`: truncation toward zero. -/
def double_to_int (x : ℚ) : ℤ := if 0 ≤ x then ⌊x⌋ else ⌈x⌉

/-- The loop `for (j; j < bars && j < 100; j++) printf(glyph)`; the first argument bounds the
number of iterations left, which the test `j < 100` keeps below 100. -/
def barLoop (glyph : Char) (bars : ℤ) : Nat → Nat → List Char
  | 0, _ => []
  | fuel + 1, j =>
    if (j : ℤ) < bars ∧ j < 100 then glyph :: barLoop glyph bars fuel (j + 1) else []

/-- Embedding of `append_graphical_representation`: the text printed and the value stored
through `prev_virt`. -/
def append_graphical_representation (diff currentVirtUsed : ℚ) : List Char × ℚ :=
  let bars : ℤ := double_to_int (double_mul |diff| 100)
  let glyphs : List Char :=
    if double_of_decimal (1 / 100) ≤ diff then barLoop '#' bars 100 0 ++ ['*']
    else if diff ≤ -double_of_decimal (1 / 100) then barLoop '@' bars 100 0 ++ ['*']
    else ['o']
  ("   |".toList ++ glyphs ++ " ".toList ++ fmt2 diff ++ " (".toList ++ fmt2 currentVirtUsed
    ++ ")".toList, currentVirtUsed)

/-- The text of `printf("%.2f GB / %.2f GB -- %.2f GB / %.2f GB", ...)` for one sample. -/
def memoryLine (m : MemoryStats) : List Char :=
  fmt2 m.phys_used ++ " GB / ".toList ++ fmt2 m.phys_total ++ " GB -- ".toList
    ++ fmt2 m.virt_used ++ " GB / ".toList ++ fmt2 m.virt_total ++ " GB".toList

/-- The first line `display_memory_stats` prints. -/
def memoryHeader : List Char :=
  "### Memory ### (Phys.Used/Tot -- Virtual Used/Tot)\n".toList

/-- One sample line of `display_memory_stats`: the figures, the graphic when enabled, a
newline. The state is the text printed so far and the value of `*prev_virt`. -/
def printSample (m : MemoryStats) (diff : ℚ) (graphics_flag : Bool) (st : List Char × ℚ) :
    List Char × ℚ :=
  let st1 : List Char × ℚ := (st.1 ++ memoryLine m, st.2)
  let st2 : List Char × ℚ :=
    if graphics_flag then
      ((st1.1 ++ (append_graphical_representation diff m.virt_used).1),
        (append_graphical_representation diff m.virt_used).2)
    else st1
  (st2.1 ++ ['\n'], st2.2)

/-- Embedding of `display_memory_stats`: the text printed and the final value of
`*prev_virt`. -/
def display_memory_stats (memory_stats_array : Nat → MemoryStats) (samples currentSample : Nat)
    (sequential graphics_flag : Bool) (prev_virt : ℚ) : List Char × ℚ :=
  let st0 : List Char × ℚ := (memoryHeader, prev_virt)
  let st1 : List Char × ℚ :=
    if sequential then
      (List.range samples).foldl (fun st i =>
        if i = currentSample then
          let diff : ℚ :=
            if i = 0 then 0 else double_sub (memory_stats_array i).virt_used st.2
          printSample (memory_stats_array i) diff graphics_flag st
        else (st.1 ++ ['\n'], st.2)) st0
    else
      let st := (List.range (currentSample + 1)).foldl (fun st i =>
        let diff : ℚ :=
          if i = 0 then 0
          else double_sub (memory_stats_array i).virt_used (memory_stats_array (i - 1)).virt_used
        printSample (memory_stats_array i) diff graphics_flag st) st0
      (List.range' (currentSample + 1) (samples - (currentSample + 1))).foldl
        (fun st _ => (st.1 ++ ['\n'], st.2)) st
  if graphics_flag ∧ (currentSample : ℤ) < (samples : ℤ) - 1 then
    (st1.1, (memory_stats_array currentSample).virt_used)
  else st1

/-- The delta `display_memory_stats` shows on line `k` of the cumulative table. -/
def cumulativeDiff (arr : Nat → MemoryStats) (k : Nat) : ℚ :=
  if k = 0 then 0 else double_sub (arr k).virt_used (arr (k - 1)).virt_used

/-- A sample line without its newline: the figures, and the graphic when enabled. -/
def sampleLine (m : MemoryStats) (diff : ℚ) (graphics_flag : Bool) : List Char :=
  memoryLine m ++ (if graphics_flag then (append_graphical_representation diff m.virt_used).1
    else [])

/-- The bar `append_graphical_representation` draws: `min(bars, 100)` glyphs for the integer
part `bars` of the `double` product `fabs(diff) * 100`, `#` for growth and `@` for shrinkage,
closed by `*`; the single glyph `o` for a change between the `double` constants `-0.01` and
`0.01`. -/
def deltaGlyphs (diff : ℚ) : List Char :=
  if double_of_decimal (1 / 100) ≤ diff then
    List.replicate (min ⌊double_mul |diff| 100⌋.toNat 100) '#' ++ ['*']
  else if diff ≤ -double_of_decimal (1 / 100) then
    List.replicate (min ⌊double_mul |diff| 100⌋.toNat 100) '@' ++ ['*']
  else ['o']

/-- The bar of the specification: `min(floor(|diff| * 100), 100)` glyphs, `#` for growth and
`@` for shrinkage, closed by `*`; the single glyph `o` for a change below 0.01. -/
def specDeltaGlyphs (diff : ℚ) : List Char :=
  if 1 / 100 ≤ diff then List.replicate (min ⌊|diff| * 100⌋.toNat 100) '#' ++ ['*']
  else if diff ≤ -(1 / 100) then List.replicate (min ⌊|diff| * 100⌋.toNat 100) '@' ++ ['*']
  else ['o']

/-- The delta of the specification for line `i` of the cumulative table: against the previous
sample, and against the baseline for the first sample. -/
def specCumulativeDiff (arr : Nat → MemoryStats) (prev_virt : ℚ) (i : Nat) : ℚ :=
  if i = 0 then (arr 0).virt_used - prev_virt else (arr i).virt_used - (arr (i - 1)).virt_used

/-! ## Channel between the memory worker and its parent -/

/-- The conversion `%lf` of `scanf` on decimal notation: skip white space, read an optional
sign, digits, and after a point further digits; fails when there is no digit. Exponents,
infinities and hexadecimal notation, which `%.2f` never writes, are not read. -/
def scan_lf (s : List Char) : Option (ℚ × List Char) :=
  let signed := stripSign (s.dropWhile isspace)
  let ip := signed.2.takeWhile Char.isDigit
  let r1 := signed.2.dropWhile Char.isDigit
  let frac : List Char × List Char :=
    match r1 with
    | [] => ([], [])
    | c :: t =>
      if c = '.' then (t.takeWhile Char.isDigit, t.dropWhile Char.isDigit) else ([], c :: t)
  if ip = [] ∧ frac.1 = [] then none
  else
    let v : ℚ :=
      double_of_decimal ((digitsValue ip : ℚ) + (digitsValue frac.1 : ℚ) / 10 ^ frac.1.length)
    some (if signed.1 then -v else v, frac.2)

/-- The message of the memory worker: `snprintf(buffer, 1024, "%.2f %.2f %.2f %.2f", ...)`. -/
def snprintf_memory (m : MemoryStats) : List Char :=
  (fmt2 m.phys_used ++ " ".toList ++ fmt2 m.phys_total ++ " ".toList ++ fmt2 m.virt_used
    ++ " ".toList ++ fmt2 m.virt_total).take 1023

/-- The parent's `sscanf(buffer, "%lf %lf %lf %lf", ...)` into the fields of one array entry:
the fields converted before the first failure are assigned, the others keep their value. -/
def sscanf_memory (buffer : List Char) (entry : MemoryStats) : MemoryStats :=
  match scan_lf buffer with
  | none => entry
  | some (a, r1) =>
    match scan_lf (r1.dropWhile isspace) with
    | none => { entry with phys_used := a }
    | some (b, r2) =>
      match scan_lf (r2.dropWhile isspace) with
      | none => { entry with phys_used := a, phys_total := b }
      | some (c, r3) =>
        match scan_lf (r3.dropWhile isspace) with
        | none => { entry with phys_used := a, phys_total := b, virt_used := c }
        | some (d, _) => { phys_used := a, phys_total := b, virt_used := c, virt_total := d }

/-- Embedding of `launchMemoryStatsProcess`: the worker gathers the sample and writes it to
the pipe, the parent parses it into its own array and renders. The result is the parent's
array, the text printed and the value of `*prev_virt`; the error branch is the failure of the
worker. -/
def launchMemoryStatsProcess (os : Option SysInfo) (memory_stats_array : Nat → MemoryStats)
    (samples currentSample : Nat) (sequential_flag graphics_flag : Bool) (prev_virt : ℚ) :
    Except Exit ((Nat → MemoryStats) × (List Char × ℚ)) :=
  match gather_memory_stats os memory_stats_array currentSample with
  | .error e => .error e
  | .ok child_array =>
    let buffer := snprintf_memory (child_array currentSample)
    let parent_array := Function.update memory_stats_array currentSample
      (sscanf_memory buffer (memory_stats_array currentSample))
    .ok (parent_array, display_memory_stats parent_array samples currentSample sequential_flag
      graphics_flag prev_virt)

/-- A value rounded to two decimals, ties to the even neighbour. -/
def round2 (x : ℚ) : ℚ :=
  (if x < 0 then -1 else 1) * (roundHalfEven (|x| * 100) : ℚ) / 100

/-! ## User sessions -/

/-- The fields of `struct utmp` the collector reads. The three character arrays (of 32, 32
and 256 bytes) are the texts `%s` prints for them, each taken to end at a terminator inside
its array; an array filled to its last byte has none, and `%s` then runs on into the member
that follows, which is not represented. -/
structure Utmp where
  ut_type : Int
  ut_user : List Char
  ut_line : List Char
  ut_host : List Char
  deriving DecidableEq

/-- The entry type `USER_PROCESS`. -/
abbrev USER_PROCESS : Int := 7

/-- The record `UserNode`, without its link; a list of them is the linked list. -/
structure UserNode where
  username : List Char
  utmp_line : List Char
  hostname : List Char
  deriving DecidableEq

/-- Embedding of `append_user`: a new node after the last one; `strncpy` copies at most the
size of each field. -/
def append_user (head : List UserNode) (username utmp_line hostname : List Char) :
    List UserNode :=
  head ++ [⟨username.take 256, utmp_line.take 32, hostname.take 256⟩]

/-- What the worker of `launchUserStatsProcess` writes to the pipe: a line
`"%s %s %s\n"` for every entry of type `USER_PROCESS`. -/
def writeUserEntries (table : List Utmp) : List Char :=
  table.foldl (fun out u =>
    if u.ut_type = USER_PROCESS then
      out ++ u.ut_user ++ " ".toList ++ u.ut_line ++ " ".toList ++ u.ut_host ++ "\n".toList
    else out) []

/-- The conversion `%Ns` of `scanf`: skip white space, read at most `width` characters up to
the next white space; fails at the end of the input. -/
def scan_s (width : Nat) (s : List Char) : Option (List Char × List Char) :=
  let s1 := s.dropWhile isspace
  let word := (s1.takeWhile (fun c => !isspace c)).take width
  if word = [] then none else some (word, s1.drop word.length)

/-- The parent's loop `while (fscanf(stream, "%255s %31s %255s\n", ...) == 3) append_user`.
The first argument bounds the number of iterations; every iteration consumes input, so the
length of the stream is enough. -/
def readUserEntries : Nat → List Char → List UserNode → List UserNode
  | 0, _, head => head
  | fuel + 1, stream, head =>
    match scan_s 255 stream with
    | none => head
    | some (username, r1) =>
      match scan_s 31 (r1.dropWhile isspace) with
      | none => head
      | some (utmp_line, r2) =>
        match scan_s 255 (r2.dropWhile isspace) with
        | none => head
        | some (hostname, r3) =>
          readUserEntries fuel (r3.dropWhile isspace)
            (append_user head username utmp_line hostname)

/-- Embedding of `launchUserStatsProcess` (pipe and worker created without failure): the
argument is the login-session table `getutent` enumerates. -/
def launchUserStatsProcess (table : List Utmp) : List UserNode :=
  readUserEntries ((writeUserEntries table).length + 1) (writeUserEntries table) []

/-- The list of sessions of the specification: one per entry of type `USER_PROCESS`, in the
order of the table, with the three fields of the entry. -/
def specUserSessions (table : List Utmp) : List UserNode :=
  (table.filter (fun u => u.ut_type = USER_PROCESS)).map
    (fun u => ⟨u.ut_user, u.ut_line, u.ut_host⟩)

/-- An entry the text channel carries intact: three non-empty fields without white space,
each terminated inside its array. -/
def Utmp.Plain (u : Utmp) : Prop :=
  (u.ut_user ≠ [] ∧ u.ut_user.length ≤ 31 ∧ ∀ c ∈ u.ut_user, isspace c = false)
    ∧ (u.ut_line ≠ [] ∧ u.ut_line.length ≤ 31 ∧ ∀ c ∈ u.ut_line, isspace c = false)
    ∧ (u.ut_host ≠ [] ∧ u.ut_host.length ≤ 255 ∧ ∀ c ∈ u.ut_host, isspace c = false)

/-- The line the worker writes for one entry. -/
def userLine (u : Utmp) : List Char :=
  u.ut_user ++ " ".toList ++ u.ut_line ++ " ".toList ++ u.ut_host ++ "\n".toList

/-! ## Baseline of the memory graphic across iterations -/

/-- The value of the variable `prev_virt` of `main` at the start of iteration `i`: `0.00` before
the first iteration, afterwards what the render of the previous iteration left in it. -/
def main_prev_virt (memory_stats_array : Nat → MemoryStats) (samples : Nat)
    (sequential graphics_flag : Bool) : Nat → ℚ
  | 0 => 0
  | i + 1 =>
    (display_memory_stats memory_stats_array samples i sequential graphics_flag
      (main_prev_virt memory_stats_array samples sequential graphics_flag i)).2

/-! ## CPU graphics -/

/-- Size in bytes of one row of `cpu_graphics_arr`. -/
abbrev CPU_GRAPHIC_SLOT : Nat := 1024

/-- The text `update_cpu_graphics` builds for one sample: the pad written by `snprintf`, one
`|` per iteration of the `strcat` loop, the text of `usage_str`. -/
def cpuGraphicText (cpu_usage : ℚ) : List Char :=
  let num_bars : ℤ := double_to_int (double_add cpu_usage 3)
  let padded : List Char := "         ".toList
  let barred : List Char := (List.range num_bars.toNat).foldl (fun row _ => row ++ ['|']) padded
  let usage_str : List Char := (" ".toList ++ fmt2 cpu_usage ++ " ".toList).take 31
  barred ++ usage_str

/-- Embedding of `update_cpu_graphics`: the array after the row `sample_index` is rebuilt.
The row holds `CPU_GRAPHIC_SLOT` bytes, terminator included; `none` stands for a text that
does not fit, where `strcat` writes past the row. -/
def update_cpu_graphics (cpu_usage : ℚ) (sample_index : Nat)
    (cpu_graphics_arr : Nat → List Char) (_samples : Nat) : Option (Nat → List Char) :=
  if (cpuGraphicText cpu_usage).length < CPU_GRAPHIC_SLOT then
    some (Function.update cpu_graphics_arr sample_index (cpuGraphicText cpu_usage))
  else none

/-- Embedding of `print_cpu_graphics`: the text printed. -/
def print_cpu_graphics (currentSample : Nat) (sequential : Bool)
    (cpu_graphics_arr : Nat → List Char) (_samples : Nat) : List Char :=
  if sequential then
    (List.range (currentSample + 1)).foldl (fun out i =>
      if i = currentSample then out ++ cpu_graphics_arr i ++ ['\n'] else out ++ ['\n']) []
  else
    (List.range (currentSample + 1)).foldl (fun out i => out ++ cpu_graphics_arr i ++ ['\n']) []

/-- Number of bar glyphs in a CPU graphic text. -/
def cpuGlyphCount (text : List Char) : Nat := text.count '|'

/-- The CPU graphic table of the specification in cumulative mode: the rows of samples `0..i`,
one per line, then blank lines up to the height `samples`. -/
def specCpuTable (cpu_graphics_arr : Nat → List Char) (samples i : Nat) : List Char :=
  ((List.range (i + 1)).map (fun k => cpu_graphics_arr k ++ ['\n'])).flatten
    ++ List.replicate (samples - 1 - i) '\n'

/-! ## One iteration of the sampling loop -/

/-- The calls one iteration of the loop of `main` makes, in order. -/
inductive Step
  | get_cpu_idle_total_times
  | sleep
  | display_header
  | separator
  | launchMemoryStatsProcess
  | launchUserStatsProcess
  | get_cpu_cores
  | launchCpuStatsProcess
  deriving DecidableEq

/-- Whether a call launches one of the three collector workers. -/
def Step.isCollector : Step → Bool
  | .launchMemoryStatsProcess => true
  | .launchUserStatsProcess => true
  | .launchCpuStatsProcess => true
  | _ => false

/-- Embedding of the body of the loop of `main` (pipes created without failure): the calls
made for given flags. Printing and freeing the user list belong to the user collector. -/
def mainIteration (system_flag user_flag : Bool) : List Step :=
  [Step.get_cpu_idle_total_times, Step.sleep, Step.display_header]
    ++ (if !user_flag || (user_flag && system_flag) then
          [Step.separator, Step.launchMemoryStatsProcess]
            ++ (if (user_flag && system_flag) || !system_flag then
                  [Step.separator, Step.launchUserStatsProcess, Step.separator]
                else [])
            ++ [Step.get_cpu_cores, Step.launchCpuStatsProcess]
        else [Step.separator, Step.launchUserStatsProcess, Step.separator])

/-! # Lemmas and theorems -/

/-! ## Lemmas on machine arithmetic -/

theorem ulong_sub_of_le {a b : Nat} (ha : a < ULONG_MOD) (hba : b ≤ a) :
    ulong_sub a b = a - b := by
  unfold ulong_sub
  have h : a + ULONG_MOD - b = (a - b) + ULONG_MOD := by omega
  rw [h, Nat.add_mod_right]
  exact Nat.mod_eq_of_lt (by omega)

theorem ulong_sub_of_lt {a b : Nat} (hb : b < ULONG_MOD) (hab : a < b) :
    ulong_sub a b = a + ULONG_MOD - b := by
  unfold ulong_sub
  exact Nat.mod_eq_of_lt (by omega)

theorem ulong_sub_eq_zero_iff {a b : Nat} (ha : a < ULONG_MOD) (hb : b < ULONG_MOD) :
    ulong_sub a b = 0 ↔ a = b := by
  rcases Nat.lt_or_ge a b with h | h
  · rw [ulong_sub_of_lt hb h]; omega
  · rw [ulong_sub_of_le ha h]; omega

theorem ulong_sub_lt (a b : Nat) : ulong_sub a b < ULONG_MOD :=
  Nat.mod_lt _ (by decide)

theorem ulong_sub_cast {a b : Nat} (ha : a < ULONG_MOD) (hb : b < ULONG_MOD) :
    ((ulong_sub a b : Nat) : ℤ) = ((a : ℤ) - b) % 2 ^ 64 := by
  rcases Nat.lt_or_ge a b with h | h
  · rw [ulong_sub_of_lt hb h]
    simp only [ULONG_MOD] at *
    omega
  · rw [ulong_sub_of_le ha h]
    simp only [ULONG_MOD] at *
    omega

/-! ## Lemmas on the arithmetic of `double` -/

theorem roundHalfEven_le (q : ℚ) (M : ℤ) (h : q ≤ M) : roundHalfEven q ≤ M := by
  have hfl : ⌊q⌋ ≤ M := Int.floor_le_iff.2 (lt_of_le_of_lt h (by exact_mod_cast Int.lt_succ M))
  unfold roundHalfEven
  simp only
  by_cases h1 : q - (⌊q⌋ : ℚ) < 1 / 2
  · simp only [h1, if_true]; exact hfl
  · have hne : (⌊q⌋ : ℚ) < q := by linarith
    have hlt : ⌊q⌋ < M := by
      have : ((⌊q⌋ : ℤ) : ℚ) < (M : ℚ) := lt_of_lt_of_le hne h
      exact_mod_cast this
    simp only [h1, if_false]
    split_ifs <;> omega

theorem le_roundHalfEven (q : ℚ) (M : ℤ) (h : (M : ℚ) ≤ q) : M ≤ roundHalfEven q := by
  have hfl : M ≤ ⌊q⌋ := Int.le_floor.2 h
  unfold roundHalfEven
  simp only
  split_ifs <;> omega

theorem roundHalfEven_nonneg (q : ℚ) (h : 0 ≤ q) : 0 ≤ roundHalfEven q := by
  have hfl : 0 ≤ ⌊q⌋ := Int.floor_nonneg.2 h
  unfold roundHalfEven
  simp only
  split_ifs <;> omega

theorem roundHalfEven_intCast (k : ℤ) : roundHalfEven (k : ℚ) = k := by
  have h1 : (k : ℚ) - (k : ℚ) < 1 / 2 := by norm_num
  simp only [roundHalfEven, Int.floor_intCast, h1, if_true]

theorem roundHalfEven_mono {p q : ℚ} (h : p ≤ q) : roundHalfEven p ≤ roundHalfEven q := by
  rcases lt_or_eq_of_le (Int.floor_mono h) with hlt | heq
  · have h1 : roundHalfEven p ≤ ⌊p⌋ + 1 :=
      roundHalfEven_le p (⌊p⌋ + 1) (by push_cast; exact (Int.lt_floor_add_one p).le)
    have h2 : ⌊q⌋ ≤ roundHalfEven q := le_roundHalfEven q ⌊q⌋ (Int.floor_le q)
    omega
  · unfold roundHalfEven
    simp only
    rw [heq]
    split_ifs <;> first | omega | (exfalso; linarith)

theorem abs_roundHalfEven_sub_le (q : ℚ) : |(roundHalfEven q : ℚ) - q| ≤ 1 / 2 := by
  have h1 := Int.floor_le q
  have h2 := Int.lt_floor_add_one q
  unfold roundHalfEven
  simp only
  rw [abs_le]
  split_ifs <;> constructor <;> push_cast <;> linarith

theorem roundHalfEven_eq_of_abs_lt (q : ℚ) (K : ℤ) (h : |q - K| < 1 / 2) :
    roundHalfEven q = K := by
  obtain ⟨h1, h2⟩ := abs_lt.1 h
  have hlo : K - 1 ≤ ⌊q⌋ := Int.le_floor.2 (by push_cast; linarith)
  have hhi : ⌊q⌋ < K + 1 := Int.floor_lt.2 (by push_cast; linarith)
  have hcases : ⌊q⌋ = K - 1 ∨ ⌊q⌋ = K := by omega
  unfold roundHalfEven
  simp only
  rcases hcases with hc | hc
  · rw [hc]
    have hr : ¬ (q - ((K - 1 : ℤ) : ℚ) < 1 / 2) := by push_cast; linarith
    have hr2 : (1 : ℚ) / 2 < q - ((K - 1 : ℤ) : ℚ) := by push_cast; linarith
    simp only [hr, hr2, if_false, if_true]
    omega
  · rw [hc]
    have hr : q - (K : ℚ) < 1 / 2 := by linarith
    simp only [hr, if_true]

theorem roundHalfEven_neg (q : ℚ) : roundHalfEven (-q) = -roundHalfEven q := by
  by_cases hq : ((⌊q⌋ : ℤ) : ℚ) = q
  · have e1 : -q = ((-⌊q⌋ : ℤ) : ℚ) := by push_cast; rw [hq]
    have e2 : roundHalfEven q = ⌊q⌋ := by
      conv_lhs => rw [← hq]
      exact roundHalfEven_intCast _
    rw [e1, roundHalfEven_intCast, e2]
  · have h1 := Int.floor_le q
    have h2 := Int.lt_floor_add_one q
    have hlt : ((⌊q⌋ : ℤ) : ℚ) < q := lt_of_le_of_ne h1 hq
    have hf : ⌊-q⌋ = -⌊q⌋ - 1 := by
      rw [Int.floor_eq_iff]
      constructor
      · push_cast; linarith
      · push_cast; linarith
    unfold roundHalfEven
    simp only
    rw [hf]
    push_cast
    split_ifs <;> first | omega | (exfalso; linarith)

theorem bitLengthAux_zero (fuel : Nat) : bitLengthAux fuel 0 = 0 := by
  cases fuel <;> simp [bitLengthAux]

theorem bitLengthAux_spec : ∀ fuel n : Nat, n ≤ fuel →
    n < 2 ^ bitLengthAux fuel n ∧ (n ≠ 0 → 1 ≤ bitLengthAux fuel n
      ∧ 2 ^ (bitLengthAux fuel n - 1) ≤ n) := by
  intro fuel
  induction fuel with
  | zero =>
    intro n hn
    have : n = 0 := by omega
    subst this
    simp [bitLengthAux]
  | succ fuel ih =>
    intro n hn
    by_cases h0 : n = 0
    · subst h0
      simp [bitLengthAux]
    · have hle : n / 2 ≤ fuel := by omega
      obtain ⟨i1, i2⟩ := ih (n / 2) hle
      have e : bitLengthAux (fuel + 1) n = bitLengthAux fuel (n / 2) + 1 := by
        simp [bitLengthAux, h0]
      rw [e]
      refine ⟨?_, fun _ => ⟨by omega, ?_⟩⟩
      · rw [pow_succ]; omega
      · rw [Nat.add_sub_cancel]
        by_cases h2 : n / 2 = 0
        · rw [h2, bitLengthAux_zero]
          simp
          omega
        · obtain ⟨j1, j2⟩ := i2 h2
          have e2 : bitLengthAux fuel (n / 2) = (bitLengthAux fuel (n / 2) - 1) + 1 := by omega
          rw [e2, pow_succ]
          omega

theorem lt_two_pow_bitLength (n : Nat) : n < 2 ^ bitLength n :=
  (bitLengthAux_spec n n (le_refl n)).1

theorem two_pow_bitLength_le (n : Nat) (h : n ≠ 0) :
    1 ≤ bitLength n ∧ 2 ^ (bitLength n - 1) ≤ n :=
  (bitLengthAux_spec n n (le_refl n)).2 h

theorem two_zpow_pos (k : ℤ) : (0 : ℚ) < 2 ^ k := zpow_pos (by norm_num) k

/-- The binary exponent brackets the value. -/
theorem binade_spec (q : ℚ) (hq : q ≠ 0) :
    (2 : ℚ) ^ binade q ≤ |q| ∧ |q| < 2 ^ (binade q + 1) := by
  have hn0 : q.num.natAbs ≠ 0 := by
    intro h
    exact hq (Rat.num_eq_zero.1 (Int.natAbs_eq_zero.1 h))
  have hd0 : q.den ≠ 0 := q.den_nz
  obtain ⟨a1, a2⟩ := two_pow_bitLength_le _ hn0
  obtain ⟨b1, b2⟩ := two_pow_bitLength_le _ hd0
  have a3 := lt_two_pow_bitLength q.num.natAbs
  have b3 := lt_two_pow_bitLength q.den
  have habs : |q| = (q.num.natAbs : ℚ) / (q.den : ℚ) := by
    conv_lhs => rw [← Rat.num_div_den q]
    rw [abs_div, Nat.abs_cast, Nat.cast_natAbs, Int.cast_abs]
  have hdpos : (0 : ℚ) < (q.den : ℚ) := by exact_mod_cast Nat.pos_of_ne_zero hd0
  set a := bitLength q.num.natAbs with ha
  set b := bitLength q.den with hb
  have a2q : (2 : ℚ) ^ (a - 1) ≤ (q.num.natAbs : ℚ) := by exact_mod_cast a2
  have a3q : (q.num.natAbs : ℚ) < (2 : ℚ) ^ a := by exact_mod_cast a3
  have b2q : (2 : ℚ) ^ (b - 1) ≤ (q.den : ℚ) := by exact_mod_cast b2
  have b3q : (q.den : ℚ) < (2 : ℚ) ^ b := by exact_mod_cast b3
  have two_ne : (2 : ℚ) ≠ 0 := by norm_num
  have ea : (2 : ℚ) ^ a = 2 * 2 ^ (a - 1) := by
    have : a = (a - 1) + 1 := by omega
    conv_lhs => rw [this]
    rw [pow_succ]; ring
  have eb : (2 : ℚ) ^ b = 2 * 2 ^ (b - 1) := by
    have : b = (b - 1) + 1 := by omega
    conv_lhs => rw [this]
    rw [pow_succ]; ring
  have pa : (0 : ℚ) < 2 ^ (a - 1) := pow_pos (by norm_num) _
  have pb : (0 : ℚ) < 2 ^ (b - 1) := pow_pos (by norm_num) _
  -- the two outer bounds
  have hup : |q| < 2 ^ (((a : ℤ) - b) + 1) := by
    rw [habs, zpow_add₀ two_ne, zpow_sub₀ two_ne, zpow_natCast, zpow_natCast, zpow_one,
      div_lt_iff₀ hdpos]
    rw [ea, eb]
    rw [ea] at a3q
    have : (2 * 2 ^ (a - 1) : ℚ) / (2 * 2 ^ (b - 1)) * 2 * (q.den : ℚ)
        = 2 * 2 ^ (a - 1) * ((q.den : ℚ) / 2 ^ (b - 1)) := by
      field_simp
      ring
    rw [this]
    have h1 : (1 : ℚ) ≤ (q.den : ℚ) / 2 ^ (b - 1) := by
      rw [le_div_iff₀ pb]; linarith
    nlinarith
  have hlo : (2 : ℚ) ^ (((a : ℤ) - b) - 1) ≤ |q| := by
    rw [habs, zpow_sub₀ two_ne, zpow_sub₀ two_ne, zpow_natCast, zpow_natCast, zpow_one,
      le_div_iff₀ hdpos]
    rw [ea]
    have : (2 * 2 ^ (a - 1) : ℚ) / 2 ^ b / 2 * (q.den : ℚ)
        = 2 ^ (a - 1) * ((q.den : ℚ) / 2 ^ b) := by
      field_simp
      ring
    rw [this]
    have pb2 : (0 : ℚ) < 2 ^ b := pow_pos (by norm_num) _
    have h1 : (q.den : ℚ) / 2 ^ b ≤ 1 := by
      rw [div_le_iff₀ pb2]; linarith
    nlinarith
  unfold binade
  simp only
  rw [← ha, ← hb]
  split_ifs with h
  · exact ⟨h, hup⟩
  · refine ⟨hlo, ?_⟩
    rw [sub_add_cancel]
    exact lt_of_not_le h

theorem binade_lt_of_abs_lt (q : ℚ) (hq : q ≠ 0) (k : ℤ) (h : |q| < 2 ^ k) : binade q < k :=
  (zpow_lt_zpow_iff_right₀ (by norm_num : (1 : ℚ) < 2)).1
    (lt_of_le_of_lt (binade_spec q hq).1 h)

theorem le_binade_of_le_abs (q : ℚ) (hq : q ≠ 0) (k : ℤ) (h : (2 : ℚ) ^ k ≤ |q|) :
    k ≤ binade q := by
  have := (zpow_lt_zpow_iff_right₀ (by norm_num : (1 : ℚ) < 2)).1
    (lt_of_le_of_lt h (binade_spec q hq).2)
  omega

theorem ulp_pos (q : ℚ) : 0 < ulp q := two_zpow_pos _

/-- A power of two at or above the unit in the last place is a multiple of it. -/
theorem two_zpow_eq_mul_ulp (q : ℚ) (k : ℤ) (hk : max (binade q) (-1022) - 52 ≤ k) :
    ∃ N : ℕ, (2 : ℚ) ^ k = (N : ℚ) * ulp q := by
  refine ⟨2 ^ (k - (max (binade q) (-1022) - 52)).toNat, ?_⟩
  unfold ulp
  push_cast
  rw [← zpow_natCast, Int.toNat_of_nonneg (by omega), ← zpow_add₀ (by norm_num : (2 : ℚ) ≠ 0)]
  congr 1
  ring

theorem ulp_exponent_le (q : ℚ) (hq : q ≠ 0) (k : ℤ) (hk : -1074 ≤ k)
    (h : |q| < 2 ^ (k + 53)) : max (binade q) (-1022) - 52 ≤ k := by
  have := binade_lt_of_abs_lt q hq _ h
  have h2 := max_le (by omega : binade q ≤ k + 52) (by omega : (-1022 : ℤ) ≤ k + 52)
  omega

theorem fl_zero : fl 0 = 0 := by
  unfold fl
  rw [zero_div]
  have : roundHalfEven 0 = 0 := roundHalfEven_intCast 0
  rw [this]
  simp

/-- Rounding does not cross a value of the grid of the unit in the last place, from below. -/
theorem fl_le_of_le_mul_ulp (q : ℚ) (M : ℤ) (h : q ≤ M * ulp q) : fl q ≤ M * ulp q := by
  unfold fl
  apply mul_le_mul_of_nonneg_right _ (ulp_pos q).le
  have : roundHalfEven (q / ulp q) ≤ M :=
    roundHalfEven_le _ M (by rw [div_le_iff₀ (ulp_pos q)]; exact h)
  exact_mod_cast this

theorem le_fl_of_mul_ulp_le (q : ℚ) (M : ℤ) (h : (M : ℚ) * ulp q ≤ q) : M * ulp q ≤ fl q := by
  unfold fl
  apply mul_le_mul_of_nonneg_right _ (ulp_pos q).le
  have : M ≤ roundHalfEven (q / ulp q) :=
    le_roundHalfEven _ M (by rw [le_div_iff₀ (ulp_pos q)]; exact h)
  exact_mod_cast this

/-- Rounding does not cross `m * 2 ^ k` from below, for a value below `2 ^ (k + 53)`. -/
theorem fl_le_of (q : ℚ) (m k : ℤ) (hk : -1074 ≤ k) (hq : |q| < 2 ^ (k + 53))
    (h : q ≤ m * 2 ^ k) : fl q ≤ m * 2 ^ k := by
  by_cases h0 : q = 0
  · rw [h0, fl_zero]; rw [h0] at h; exact h
  · obtain ⟨N, hN⟩ := two_zpow_eq_mul_ulp q k (ulp_exponent_le q h0 k hk hq)
    have e : (m : ℚ) * 2 ^ k = ((m * N : ℤ) : ℚ) * ulp q := by
      rw [hN]; push_cast; ring
    rw [e] at h ⊢
    exact fl_le_of_le_mul_ulp q _ h

/-- Rounding does not cross `m * 2 ^ k` from above, for a value below `2 ^ (k + 53)`. -/
theorem le_fl_of (q : ℚ) (m k : ℤ) (hk : -1074 ≤ k) (hq : |q| < 2 ^ (k + 53))
    (h : (m : ℚ) * 2 ^ k ≤ q) : (m : ℚ) * 2 ^ k ≤ fl q := by
  by_cases h0 : q = 0
  · rw [h0, fl_zero]; rw [h0] at h; exact h
  · obtain ⟨N, hN⟩ := two_zpow_eq_mul_ulp q k (ulp_exponent_le q h0 k hk hq)
    have e : (m : ℚ) * 2 ^ k = ((m * N : ℤ) : ℚ) * ulp q := by
      rw [hN]; push_cast; ring
    rw [e] at h ⊢
    exact le_fl_of_mul_ulp_le q _ h

/-- A value `m * 2 ^ k` below `2 ^ (k + 53)` is a `double`: rounding leaves it unchanged. -/
theorem fl_eq_of (q : ℚ) (m k : ℤ) (hk : -1074 ≤ k) (hq : |q| < 2 ^ (k + 53))
    (h : q = m * 2 ^ k) : fl q = q := by
  apply le_antisymm
  · conv_rhs => rw [h]
    exact fl_le_of q m k hk hq h.le
  · conv_lhs => rw [h]
    exact le_fl_of q m k hk hq h.ge

theorem fl_le_int (q : ℚ) (m : ℤ) (hq : |q| < 2 ^ 53) (h : q ≤ m) : fl q ≤ m := by
  have hq2 : |q| < (2 : ℚ) ^ ((0 : ℤ) + 53) := by norm_num; exact hq
  have := fl_le_of q m 0 (by norm_num) hq2 (by simpa using h)
  simpa using this

theorem le_fl_int (q : ℚ) (m : ℤ) (hq : |q| < 2 ^ 53) (h : (m : ℚ) ≤ q) : (m : ℚ) ≤ fl q := by
  have hq2 : |q| < (2 : ℚ) ^ ((0 : ℤ) + 53) := by norm_num; exact hq
  have := le_fl_of q m 0 (by norm_num) hq2 (by simpa using h)
  simpa using this

/-- Integers below `2 ^ 53` in magnitude are `double` values. -/
theorem fl_intCast (m : ℤ) (h : |(m : ℚ)| < 2 ^ 53) : fl (m : ℚ) = m :=
  le_antisymm (fl_le_int _ m h le_rfl) (le_fl_int _ m h le_rfl)

theorem fl_natCast (n : Nat) (h : n < 2 ^ 53) : fl (n : ℚ) = n := by
  have := fl_intCast (n : ℤ) (by
    rw [Int.cast_natCast, Nat.abs_cast]
    exact_mod_cast h)
  simpa using this

theorem ulong_to_double_of_lt (n : Nat) (h : n < 2 ^ 53) : ulong_to_double n = n :=
  fl_natCast n h

theorem fl_nonneg (q : ℚ) (h : 0 ≤ q) : 0 ≤ fl q := by
  unfold fl
  apply mul_nonneg _ (ulp_pos q).le
  have := roundHalfEven_nonneg (q / ulp q) (div_nonneg h (ulp_pos q).le)
  exact_mod_cast this

theorem binade_neg (q : ℚ) : binade (-q) = binade q := by
  unfold binade
  simp only [Rat.num_neg_eq_neg_num, Int.natAbs_neg, Rat.den_neg_eq_den, abs_neg]

theorem ulp_neg (q : ℚ) : ulp (-q) = ulp q := by
  unfold ulp
  rw [binade_neg]

theorem fl_neg (q : ℚ) : fl (-q) = -fl q := by
  unfold fl
  rw [ulp_neg, neg_div, roundHalfEven_neg]
  push_cast
  ring

theorem fl_abs (q : ℚ) : fl |q| = |fl q| := by
  rcases le_total 0 q with h | h
  · rw [abs_of_nonneg h, abs_of_nonneg (fl_nonneg q h)]
  · have h2 : 0 ≤ fl (-q) := fl_nonneg _ (by linarith)
    rw [abs_of_nonpos h]
    rw [fl_neg] at h2 ⊢
    rw [abs_of_nonpos (by linarith)]

/-- Rounding is monotone (stated on non-negative values). -/
theorem fl_mono_nonneg {p q : ℚ} (hp : 0 ≤ p) (h : p ≤ q) : fl p ≤ fl q := by
  rcases eq_or_lt_of_le hp with h0 | hpos
  · rw [← h0, fl_zero]; exact fl_nonneg q (le_trans hp h)
  have hqpos : 0 < q := lt_of_lt_of_le hpos h
  obtain ⟨p1, p2⟩ := binade_spec p hpos.ne'
  obtain ⟨q1, q2⟩ := binade_spec q hqpos.ne'
  rw [abs_of_pos hpos] at p1 p2
  rw [abs_of_pos hqpos] at q1 q2
  have hb : binade p ≤ binade q := by
    have := (zpow_lt_zpow_iff_right₀ (by norm_num : (1 : ℚ) < 2)).1
      (lt_of_le_of_lt p1 (lt_of_le_of_lt h q2))
    omega
  rcases eq_or_lt_of_le (max_le_max hb (le_refl (-1022 : ℤ))) with he | hlt
  · have hu : ulp p = ulp q := by unfold ulp; rw [he]
    unfold fl
    rw [hu]
    apply mul_le_mul_of_nonneg_right _ (ulp_pos q).le
    have := roundHalfEven_mono (div_le_div_of_nonneg_right h (ulp_pos q).le)
    exact_mod_cast this
  · have hbq : max (binade q) (-1022) = binade q := by
      rcases max_cases (binade q) (-1022) with ⟨e, -⟩ | ⟨e, -⟩
      · exact e
      · rw [e] at hlt
        have := le_max_right (binade p) (-1022)
        omega
    rw [hbq] at hlt
    have hpa : binade p ≤ max (binade p) (-1022) := le_max_left _ _
    obtain ⟨N1, hN1⟩ := two_zpow_eq_mul_ulp p (binade q) (by omega)
    obtain ⟨N2, hN2⟩ := two_zpow_eq_mul_ulp q (binade q) (by rw [hbq]; omega)
    have hC1 : p ≤ 2 ^ binade q :=
      le_trans p2.le (zpow_le_zpow_right₀ (by norm_num) (by omega))
    have s1 : fl p ≤ 2 ^ binade q := by
      rw [hN1] at hC1 ⊢
      exact_mod_cast fl_le_of_le_mul_ulp p (N1 : ℤ) (by exact_mod_cast hC1)
    have s2 : (2 : ℚ) ^ binade q ≤ fl q := by
      rw [hN2] at q1 ⊢
      exact_mod_cast le_fl_of_mul_ulp_le q (N2 : ℤ) (by exact_mod_cast q1)
    exact le_trans s1 s2

/-- The error of rounding is at most half a unit in the last place. -/
theorem abs_fl_sub_le (q : ℚ) : |fl q - q| ≤ ulp q / 2 := by
  have hu := ulp_pos q
  have e : fl q - q = ((roundHalfEven (q / ulp q) : ℚ) - q / ulp q) * ulp q := by
    unfold fl
    field_simp
  rw [e, abs_mul, abs_of_pos hu]
  have := abs_roundHalfEven_sub_le (q / ulp q)
  nlinarith

theorem ulp_le_of_abs_lt (q : ℚ) (hq : q ≠ 0) (k : ℤ) (hk : -1074 ≤ k)
    (h : |q| < 2 ^ (k + 53)) : ulp q ≤ 2 ^ k := by
  unfold ulp
  exact zpow_le_zpow_right₀ (by norm_num) (ulp_exponent_le q hq k hk h)

/-- In the normal range the unit in the last place is at most `2 ^ (-52)` times the value. -/
theorem ulp_le_mul (q : ℚ) (h : (2 : ℚ) ^ (-1022 : ℤ) ≤ |q|) : ulp q ≤ |q| * 2 ^ (-52 : ℤ) := by
  have hq : q ≠ 0 := by
    intro h0
    rw [h0, abs_zero] at h
    exact absurd h (not_le.2 (two_zpow_pos _))
  have hb := le_binade_of_le_abs q hq _ h
  unfold ulp
  rw [max_eq_left hb, sub_eq_add_neg, zpow_add₀ (by norm_num : (2 : ℚ) ≠ 0)]
  exact mul_le_mul_of_nonneg_right (binade_spec q hq).1 (two_zpow_pos _).le

/-- Relative error of rounding in the normal range: at most `2 ^ (-53)`. -/
theorem fl_le_mul (q : ℚ) (h : (2 : ℚ) ^ (-1022 : ℤ) ≤ q) : fl q ≤ q * (1 + 2 ^ (-53 : ℤ)) := by
  have hpos : 0 < q := lt_of_lt_of_le (two_zpow_pos _) h
  have h1 := abs_fl_sub_le q
  have h2 := ulp_le_mul q (by rw [abs_of_pos hpos]; exact h)
  rw [abs_of_pos hpos] at h2
  have h3 := (abs_le.1 h1).2
  have e : (2 : ℚ) ^ (-53 : ℤ) = 2 ^ (-52 : ℤ) / 2 := by norm_num
  rw [e]
  generalize (2 : ℚ) ^ (-52 : ℤ) = c at h2 ⊢
  have e2 : q * (1 + c / 2) = q + q * c / 2 := by ring
  rw [e2]
  linarith

/-! ## Theorems: CPU usage -/

/-- C1 as stated fails: with idle counters advancing by 10 while the total advances by 5, the
formula over the integers gives `100 * (5 - 10) / 5 = -100`, but the code subtracts in
`unsigned long`, converts `2 ^ 64 - 5` to the `double` `2 ^ 64` and returns `20 * 2 ^ 64`. With
counters that do not wrap the result is a `double` too: for idle advancing by 3893 and the total
by 4000 it is the `double` next to `107 / 40`, not `107 / 40`. -/
theorem cpu_usage_formula_counterexample :
    (calculate_and_print_cpu_usage 0 10 0 5).2
        ≠ 100 * (((5 : ℚ) - 0) - ((10 : ℚ) - 0)) / ((5 : ℚ) - 0)
      ∧ (calculate_and_print_cpu_usage 0 10 0 5).2 = 20 * 2 ^ 64
      ∧ (calculate_and_print_cpu_usage 0 3893 0 4000).2
        ≠ 100 * (((4000 : ℚ) - 0) - ((3893 : ℚ) - 0)) / ((4000 : ℚ) - 0)
      ∧ (calculate_and_print_cpu_usage 0 3893 0 4000).2
        = 107 / 40 - 1 / (5 * 2 ^ 50) := by
  decide!

/-- The usage for snapshots that do not wrap and whose total delta is below `2 ^ 53 / 100`: the
quotient of the formula, rounded once. -/
theorem cpu_usage_of_small (x y : Nat) (hxy : x ≤ y) (hy : 100 * y < 2 ^ 53) :
    double_div (double_mul 100 (ulong_to_double x)) (ulong_to_double y)
      = fl (100 * (x : ℚ) / (y : ℚ)) := by
  have e1 : ulong_to_double x = x := ulong_to_double_of_lt x (by omega)
  have e2 : ulong_to_double y = y := ulong_to_double_of_lt y (by omega)
  have e3 : double_mul 100 (x : ℚ) = 100 * (x : ℚ) := by
    have := fl_natCast (100 * x) (by omega)
    unfold double_mul
    push_cast at this
    exact this
  rw [e1, e2, e3]
  rfl

/-- C1 (amended): for all `unsigned long` snapshots the usage is `0` when the total counter did
not move; otherwise it is the `double` expression `100.0 * (totalDelta - idleDelta) / totalDelta`
with both deltas and their difference taken modulo `2 ^ 64` and converted to `double`; when the
counters are monotonic, `idleDelta ≤ totalDelta` and `100 * totalDelta < 2 ^ 53`, this is the
`double` nearest to the value of the formula over the integers. -/
theorem cpu_usage_formula (idle_start idle_end total_start total_end : Nat)
    (his : idle_start < ULONG_MOD) (hie : idle_end < ULONG_MOD)
    (hts : total_start < ULONG_MOD) (hte : total_end < ULONG_MOD) :
    (total_end = total_start →
        (calculate_and_print_cpu_usage idle_start idle_end total_start total_end).2 = 0)
    ∧ (total_end ≠ total_start →
        (calculate_and_print_cpu_usage idle_start idle_end total_start total_end).2
          = fl (fl (100 * fl ((((((total_end : ℤ) - total_start) % 2 ^ 64
                - ((idle_end : ℤ) - idle_start) % 2 ^ 64) % 2 ^ 64 : ℤ)) : ℚ))
              / fl (((((total_end : ℤ) - total_start) % 2 ^ 64 : ℤ)) : ℚ)))
    ∧ (total_start < total_end → idle_start ≤ idle_end →
        idle_end - idle_start ≤ total_end - total_start →
        100 * (total_end - total_start) < 2 ^ 53 →
        (calculate_and_print_cpu_usage idle_start idle_end total_start total_end).2
          = fl (100 * (((total_end : ℚ) - total_start) - ((idle_end : ℚ) - idle_start))
              / ((total_end : ℚ) - total_start))) := by
  refine ⟨?_, ?_, ?_⟩
  · intro h
    have h0 : ulong_sub total_end total_start = 0 := (ulong_sub_eq_zero_iff hte hts).2 h
    simp [calculate_and_print_cpu_usage, h0]
  · intro h
    have h0 : ulong_sub total_end total_start ≠ 0 :=
      fun e => h ((ulong_sub_eq_zero_iff hte hts).1 e)
    have hc := ulong_sub_cast (ulong_sub_lt total_end total_start) (ulong_sub_lt idle_end idle_start)
    rw [ulong_sub_cast hte hts, ulong_sub_cast hie his] at hc
    have ht := ulong_sub_cast hte hts
    simp only [calculate_and_print_cpu_usage, h0, if_false]
    rw [← hc, ← ht]
    simp [double_div, double_mul, ulong_to_double]
  · intro hlt hidle hle hsmall
    have ht : ulong_sub total_end total_start = total_end - total_start :=
      ulong_sub_of_le hte hlt.le
    have hi : ulong_sub idle_end idle_start = idle_end - idle_start :=
      ulong_sub_of_le hie hidle
    have hd : ulong_sub (total_end - total_start) (idle_end - idle_start)
        = (total_end - total_start) - (idle_end - idle_start) :=
      ulong_sub_of_le (by omega) hle
    have h0 : total_end - total_start ≠ 0 := by omega
    simp only [calculate_and_print_cpu_usage, ht, hi, hd, h0, if_false]
    rw [cpu_usage_of_small _ _ (Nat.sub_le _ _) hsmall]
    rw [Nat.cast_sub hle, Nat.cast_sub hlt.le, Nat.cast_sub hidle]

/-- Witness for C1: the snapshots `(100, 1000)` and `(150, 1200)` give the usage 75. -/
theorem cpu_usage_formula_witness :
    (calculate_and_print_cpu_usage 100 150 1000 1200).2
        = fl (100 * (((1200 : ℚ) - 1000) - ((150 : ℚ) - 100)) / ((1200 : ℚ) - 1000))
      ∧ fl (100 * (((1200 : ℚ) - 1000) - ((150 : ℚ) - 100)) / ((1200 : ℚ) - 1000)) = 75 := by
  have h := (cpu_usage_formula 100 150 1000 1200 (by decide) (by decide) (by decide)
    (by decide)).2.2 (by decide) (by decide) (by decide) (by decide)
  refine ⟨by exact_mod_cast h, by decide!⟩

/-- C2 as stated fails: with the idle counter at rest and the total counter advancing by
205975209267918637, the product `100.0 * totalDelta` and the quotient are rounded and the code
returns `100 + 2 ^ (-46)`, which prints as 100.00000000000001. -/
theorem cpu_usage_bounds_counterexample :
    100 < (calculate_and_print_cpu_usage 0 0 0 205975209267918637).2
      ∧ (calculate_and_print_cpu_usage 0 0 0 205975209267918637).2 = 100 + 1 / 2 ^ 46 := by
  decide!

/-- C2 (amended): for monotonic counters with `idleDelta ≤ totalDelta` the returned usage is at
least 0 and at most `100 + 2 ^ (-46)`, and it is at most 100 whenever
`100 * totalDelta < 2 ^ 53`. -/
theorem cpu_usage_bounds (idle_start idle_end total_start total_end : Nat)
    (hie : idle_end < ULONG_MOD) (hte : total_end < ULONG_MOD)
    (htot : total_start ≤ total_end) (hidle : idle_start ≤ idle_end)
    (hle : idle_end - idle_start ≤ total_end - total_start) :
    0 ≤ (calculate_and_print_cpu_usage idle_start idle_end total_start total_end).2
      ∧ (calculate_and_print_cpu_usage idle_start idle_end total_start total_end).2
          ≤ 100 + 1 / 2 ^ 46
      ∧ (100 * (total_end - total_start) < 2 ^ 53 →
          (calculate_and_print_cpu_usage idle_start idle_end total_start total_end).2 ≤ 100) := by
  have ht : ulong_sub total_end total_start = total_end - total_start :=
    ulong_sub_of_le hte htot
  have hi : ulong_sub idle_end idle_start = idle_end - idle_start :=
    ulong_sub_of_le hie hidle
  have hd : ulong_sub (total_end - total_start) (idle_end - idle_start)
      = (total_end - total_start) - (idle_end - idle_start) :=
    ulong_sub_of_le (by omega) hle
  simp only [calculate_and_print_cpu_usage, ht, hi, hd]
  split_ifs with h0
  · exact ⟨le_refl _, by norm_num, fun _ => by norm_num⟩
  · generalize hx : (total_end - total_start) - (idle_end - idle_start) = x
    generalize hy : total_end - total_start = y at h0 ⊢
    have hxy : x ≤ y := by omega
    have hy1 : 1 ≤ y := Nat.pos_of_ne_zero h0
    have hX0 : 0 ≤ ulong_to_double x := fl_nonneg _ (Nat.cast_nonneg x)
    have hXY : ulong_to_double x ≤ ulong_to_double y :=
      fl_mono_nonneg (Nat.cast_nonneg x) (by exact_mod_cast hxy)
    have hY1 : 1 ≤ ulong_to_double y := by
      have h1 : fl ((1 : Nat) : ℚ) ≤ fl (y : ℚ) :=
        fl_mono_nonneg (Nat.cast_nonneg 1) (by exact_mod_cast hy1)
      rw [fl_natCast 1 (by norm_num)] at h1
      exact_mod_cast h1
    have hYpos : 0 < ulong_to_double y := by linarith
    have hP0 : 0 ≤ double_mul 100 (ulong_to_double x) :=
      fl_nonneg _ (mul_nonneg (by norm_num) hX0)
    have hP1 : double_mul 100 (ulong_to_double x) ≤ fl (100 * ulong_to_double y) :=
      fl_mono_nonneg (mul_nonneg (by norm_num) hX0)
        (mul_le_mul_of_nonneg_left hXY (by norm_num))
    have hP2 : fl (100 * ulong_to_double y)
        ≤ 100 * ulong_to_double y * (1 + 2 ^ (-53 : ℤ)) :=
      fl_le_mul _ (by
        have : (2 : ℚ) ^ (-1022 : ℤ) ≤ 1 := zpow_le_one_of_nonpos₀ (by norm_num) (by norm_num)
        linarith)
    have hQ0 : 0 ≤ double_mul 100 (ulong_to_double x) / ulong_to_double y :=
      div_nonneg hP0 hYpos.le
    have hQ1 : double_mul 100 (ulong_to_double x) / ulong_to_double y
        ≤ 100 * (1 + 2 ^ (-53 : ℤ)) := by
      rw [div_le_iff₀ hYpos]
      linarith
    have c53 : (2 : ℚ) ^ (-53 : ℤ) = 1 / 2 ^ 53 := by norm_num
    rw [c53] at hQ1
    refine ⟨fl_nonneg _ hQ0, ?_, ?_⟩
    · have key := fl_le_of (double_mul 100 (ulong_to_double x) / ulong_to_double y)
        (100 * 2 ^ 46 + 1) (-46) (by norm_num)
        (by
          rw [abs_of_nonneg hQ0]
          have : (2 : ℚ) ^ ((-46 : ℤ) + 53) = 128 := by norm_num
          rw [this]
          have : (100 : ℚ) * (1 + 1 / 2 ^ 53) < 128 := by norm_num
          linarith)
        (by
          have : (((100 * 2 ^ 46 + 1 : ℤ)) : ℚ) * 2 ^ (-46 : ℤ) = 100 + 1 / 2 ^ 46 := by
            norm_num
          rw [this]
          have : (100 : ℚ) * (1 + 1 / 2 ^ 53) ≤ 100 + 1 / 2 ^ 46 := by norm_num
          linarith)
      have e : (((100 * 2 ^ 46 + 1 : ℤ)) : ℚ) * 2 ^ (-46 : ℤ) = 100 + 1 / 2 ^ 46 := by norm_num
      rw [e] at key
      exact key
    · intro hsmall
      rw [cpu_usage_of_small x y hxy hsmall]
      have hypos : (0 : ℚ) < (y : ℚ) := by exact_mod_cast hy1
      have hq0 : 0 ≤ 100 * (x : ℚ) / (y : ℚ) :=
        div_nonneg (mul_nonneg (by norm_num) (Nat.cast_nonneg x)) hypos.le
      have hq1 : 100 * (x : ℚ) / (y : ℚ) ≤ 100 := by
        rw [div_le_iff₀ hypos]
        have : (x : ℚ) ≤ (y : ℚ) := by exact_mod_cast hxy
        linarith
      have := fl_le_int (100 * (x : ℚ) / (y : ℚ)) 100
        (by rw [abs_of_nonneg hq0]; exact lt_of_le_of_lt hq1 (by norm_num))
        (by exact_mod_cast hq1)
      exact_mod_cast this

/-- Witness for C2: snapshots `(100, 1000)` and `(150, 1200)`. -/
theorem cpu_usage_bounds_witness :
    0 ≤ (calculate_and_print_cpu_usage 100 150 1000 1200).2
      ∧ (calculate_and_print_cpu_usage 100 150 1000 1200).2 ≤ 100 + 1 / 2 ^ 46
      ∧ (calculate_and_print_cpu_usage 100 150 1000 1200).2 ≤ 100 :=
  have h := cpu_usage_bounds 100 150 1000 1200 (by decide) (by decide) (by decide) (by decide)
    (by decide)
  ⟨h.1, h.2.1, h.2.2 (by decide)⟩

/-! ## Lemmas on decimal text -/

theorem digitChar_isDigit (k : Nat) (h : k < 10) : (Nat.digitChar k).isDigit = true := by
  interval_cases k <;> decide

theorem digitChar_value (k : Nat) (h : k < 10) : (Nat.digitChar k).toNat - '0'.toNat = k := by
  interval_cases k <;> decide

theorem toDigitsCore_append (f : Nat) : ∀ (n : Nat) (acc : List Char),
    Nat.toDigitsCore 10 f n acc = Nat.toDigitsCore 10 f n [] ++ acc := by
  induction f with
  | zero => intro n acc; simp [Nat.toDigitsCore]
  | succ f ih =>
    intro n acc
    simp only [Nat.toDigitsCore]
    split_ifs with h
    · simp
    · rw [ih (n / 10) (_ :: acc), ih (n / 10) [_]]
      simp

theorem digitsValue_append_single (l : List Char) (c : Char) :
    digitsValue (l ++ [c]) = digitsValue l * 10 + (c.toNat - '0'.toNat) := by
  simp [digitsValue, List.foldl_append]

theorem toDigitsCore_spec (f : Nat) : ∀ n : Nat, n < f →
    digitsValue (Nat.toDigitsCore 10 f n []) = n
      ∧ (∀ c ∈ Nat.toDigitsCore 10 f n [], c.isDigit = true)
      ∧ Nat.toDigitsCore 10 f n [] ≠ [] := by
  induction f with
  | zero => intro n h; omega
  | succ f ih =>
    intro n hn
    simp only [Nat.toDigitsCore]
    have hd := digitChar_isDigit (n % 10) (Nat.mod_lt _ (by decide))
    have hv := digitChar_value (n % 10) (Nat.mod_lt _ (by decide))
    split_ifs with h
    · refine ⟨?_, ?_, by simp⟩
      · have := digitsValue_append_single [] (Nat.digitChar (n % 10))
        simp only [List.nil_append] at this
        rw [this, hv]
        simp [digitsValue]
        omega
      · intro c hc
        simp only [List.mem_singleton] at hc
        rw [hc]; exact hd
    · rw [toDigitsCore_append]
      obtain ⟨h1, h2, h3⟩ := ih (n / 10) (by omega)
      refine ⟨?_, ?_, by simp⟩
      · rw [digitsValue_append_single, h1, hv]; omega
      · intro c hc
        rcases List.mem_append.1 hc with hc | hc
        · exact h2 c hc
        · simp only [List.mem_singleton] at hc
          rw [hc]; exact hd

theorem digitsValue_toDigits (n : Nat) : digitsValue (Nat.toDigits 10 n) = n :=
  (toDigitsCore_spec (n + 1) n (Nat.lt_succ_self n)).1

theorem isDigit_of_mem_toDigits (n : Nat) : ∀ c ∈ Nat.toDigits 10 n, c.isDigit = true :=
  (toDigitsCore_spec (n + 1) n (Nat.lt_succ_self n)).2.1

theorem toDigits_ne_nil (n : Nat) : Nat.toDigits 10 n ≠ [] :=
  (toDigitsCore_spec (n + 1) n (Nat.lt_succ_self n)).2.2

theorem toDigits_length_le (n : Nat) (h : n < ULONG_MOD) : (Nat.toDigits 10 n).length ≤ 20 :=
  Nat.toDigitsCore_length 10 (by decide) (n + 1) n 20
    (lt_of_lt_of_le h (by decide)) (by decide)

/-! ## Lemmas on the scanner -/

theorem dropWhile_append_of_all {α : Type} (p : α → Bool) (ws t : List α)
    (h : ∀ c ∈ ws, p c = true) : (ws ++ t).dropWhile p = t.dropWhile p := by
  induction ws with
  | nil => rfl
  | cons a ws ih =>
    have ha : p a = true := h a (List.mem_cons_self _ _)
    simp only [List.cons_append, List.dropWhile_cons, ha, if_true]
    exact ih (fun c hc => h c (List.mem_cons_of_mem _ hc))

theorem takeWhile_append_of_all {α : Type} (p : α → Bool) (ds t : List α)
    (h : ∀ c ∈ ds, p c = true) : (ds ++ t).takeWhile p = ds ++ t.takeWhile p := by
  induction ds with
  | nil => rfl
  | cons a ds ih =>
    have ha : p a = true := h a (List.mem_cons_self _ _)
    simp only [List.cons_append, List.takeWhile_cons, ha, if_true]
    rw [ih (fun c hc => h c (List.mem_cons_of_mem _ hc))]

theorem takeWhile_of_noLeadingDigit {s : List Char} (h : NoLeadingDigit s) :
    s.takeWhile Char.isDigit = [] := by
  cases s with
  | nil => rfl
  | cons c t =>
    have hc : c.isDigit = false := h c rfl
    simp [List.takeWhile_cons, hc]

theorem dropWhile_of_noLeadingDigit {s : List Char} (h : NoLeadingDigit s) :
    s.dropWhile Char.isDigit = s := by
  cases s with
  | nil => rfl
  | cons c t =>
    have hc : c.isDigit = false := h c rfl
    simp [List.dropWhile_cons, hc]

theorem noLeadingDigit_dropWhile (s : List Char) : NoLeadingDigit (s.dropWhile Char.isDigit) := by
  induction s with
  | nil => intro c hc; simp at hc
  | cons a t ih =>
    by_cases ha : a.isDigit = true
    · simpa [List.dropWhile_cons, ha] using ih
    · intro c hc
      simp only [List.dropWhile_cons, ha] at hc
      simp only [Bool.false_eq_true, if_false, List.head?_cons, Option.some.injEq] at hc
      rw [← hc]; simpa using ha

theorem all_isspace_takeWhile (s : List Char) : ∀ c ∈ s.takeWhile isspace, isspace c = true := by
  intro c hc
  exact (List.mem_takeWhile_imp hc)

theorem all_isDigit_takeWhile (s : List Char) :
    ∀ c ∈ s.takeWhile Char.isDigit, c.isDigit = true := by
  intro c hc
  exact (List.mem_takeWhile_imp hc)

theorem dropWhile_isspace_idem (s : List Char) :
    (s.dropWhile isspace).dropWhile isspace = s.dropWhile isspace := by
  induction s with
  | nil => rfl
  | cons a t ih =>
    by_cases ha : isspace a = true
    · simpa [List.dropWhile_cons, ha] using ih
    · simp [List.dropWhile_cons, ha]

theorem isspace_of_isDigit {c : Char} (h : c.isDigit = true) : isspace c = false := by
  simp only [Char.isDigit, Bool.and_eq_true, decide_eq_true_eq] at h
  simp only [isspace, Bool.or_eq_false_iff, decide_eq_false_iff_not]
  have h1 := h.1
  have h2 := h.2
  refine ⟨⟨⟨⟨⟨?_, ?_⟩, ?_⟩, ?_⟩, ?_⟩, ?_⟩ <;> (intro e; rw [e] at h1; revert h1; decide)

theorem not_sign_of_isDigit {c : Char} (h : c.isDigit = true) : c ≠ '-' ∧ c ≠ '+' := by
  simp only [Char.isDigit, Bool.and_eq_true, decide_eq_true_eq] at h
  have h1 := h.1
  constructor <;> (intro e; rw [e] at h1; revert h1; decide)

theorem stripSign_digits (ds rest : List Char) (hne : ds ≠ [])
    (hds : ∀ c ∈ ds, c.isDigit = true) : stripSign (ds ++ rest) = (false, ds ++ rest) := by
  cases ds with
  | nil => exact absurd rfl hne
  | cons d ds =>
    have hd := not_sign_of_isDigit (hds d (List.mem_cons_self _ _))
    simp [stripSign, hd.1, hd.2]

/-- Reading a number token in front of text that does not continue its digits. -/
theorem scan_lu_field (ws sg ds rest : List Char) (hws : ∀ c ∈ ws, isspace c = true)
    (hsg : sg = [] ∨ sg = ['+'] ∨ sg = ['-']) (hne : ds ≠ [])
    (hds : ∀ c ∈ ds, c.isDigit = true) (hrest : NoLeadingDigit rest) :
    scan_lu (ws ++ sg ++ ds ++ rest) = some (strtoul_value (decide (sg = ['-'])) ds, rest) := by
  obtain ⟨d, ds', rfl⟩ := List.exists_cons_of_ne_nil hne
  have hd : d.isDigit = true := hds d (List.mem_cons_self _ _)
  have hsp : isspace d = false := isspace_of_isDigit hd
  have hdrop : (ws ++ sg ++ (d :: ds') ++ rest).dropWhile isspace = sg ++ (d :: ds') ++ rest := by
    rw [List.append_assoc, List.append_assoc, dropWhile_append_of_all _ _ _ hws]
    rcases hsg with rfl | rfl | rfl
    · simp [List.dropWhile_cons, hsp]
    · simp [List.dropWhile_cons, isspace]
    · simp [List.dropWhile_cons, isspace]
  have hstrip : stripSign (sg ++ (d :: ds') ++ rest)
      = (decide (sg = ['-']), (d :: ds') ++ rest) := by
    rcases hsg with rfl | rfl | rfl
    · simpa using stripSign_digits (d :: ds') rest hne hds
    · simp [stripSign]
    · simp [stripSign]
  have htake : ((d :: ds') ++ rest).takeWhile Char.isDigit = d :: ds' := by
    rw [takeWhile_append_of_all _ _ _ hds, takeWhile_of_noLeadingDigit hrest, List.append_nil]
  have hdrop2 : ((d :: ds') ++ rest).dropWhile Char.isDigit = rest := by
    rw [dropWhile_append_of_all _ _ _ hds, dropWhile_of_noLeadingDigit hrest]
  simp only [scan_lu, hdrop, hstrip, htake, hdrop2]
  simp

theorem stripSign_decomp (s : List Char) :
    ∃ sg, (sg = [] ∨ sg = ['+'] ∨ sg = ['-']) ∧ s = sg ++ (stripSign s).2 := by
  cases s with
  | nil => exact ⟨[], Or.inl rfl, rfl⟩
  | cons c t =>
    by_cases h1 : c = '-'
    · exact ⟨['-'], Or.inr (Or.inr rfl), by simp [stripSign, h1]⟩
    · by_cases h2 : c = '+'
      · exact ⟨['+'], Or.inr (Or.inl rfl), by simp [stripSign, h2]⟩
      · exact ⟨[], Or.inl rfl, by simp [stripSign, h1, h2]⟩

/-- What a successful conversion has read is a number token, and the unread input does not
continue its digits. -/
theorem scan_lu_some {s rest : List Char} {v : Nat} (h : scan_lu s = some (v, rest)) :
    ∃ f, IsNumberField f ∧ s = f ++ rest ∧ NoLeadingDigit rest := by
  simp only [scan_lu] at h
  split_ifs at h with hds
  simp only [Option.some.injEq, Prod.mk.injEq] at h
  obtain ⟨sg, hsg, hs1⟩ := stripSign_decomp (s.dropWhile isspace)
  refine ⟨s.takeWhile isspace ++ sg ++ (stripSign (s.dropWhile isspace)).2.takeWhile Char.isDigit,
    ⟨_, _, _, rfl, all_isspace_takeWhile s, hsg, hds, all_isDigit_takeWhile _⟩, ?_, ?_⟩
  · rw [← h.2, List.append_assoc, List.append_assoc, List.takeWhile_append_dropWhile, ← hs1,
      List.takeWhile_append_dropWhile]
  · rw [← h.2]; exact noLeadingDigit_dropWhile _

theorem scan_lu_dropWhile (s : List Char) : scan_lu (s.dropWhile isspace) = scan_lu s := by
  simp only [scan_lu, dropWhile_isspace_idem]

theorem scanFields_dropWhile (k : Nat) (s : List Char) :
    scanFields k (s.dropWhile isspace) = scanFields k s := by
  cases k with
  | zero => rfl
  | succ k => simp only [scanFields, scan_lu_dropWhile]

/-- The scanner converts `k` values exactly on the texts that begin with `k` number tokens. -/
theorem scanFields_length_iff (k : Nat) : ∀ s : List Char,
    (scanFields k s).length = k ↔ StartsWithFields k s := by
  induction k with
  | zero => intro s; simp [scanFields, StartsWithFields]
  | succ k ih =>
    intro s
    constructor
    · intro h
      cases hscan : scan_lu s with
      | none => simp [scanFields, hscan] at h
      | some r =>
        obtain ⟨v, rest⟩ := r
        simp only [scanFields, hscan, List.length_cons, scanFields_dropWhile,
          Nat.add_right_cancel_iff] at h
        obtain ⟨f, hf, hs, hrest⟩ := scan_lu_some hscan
        exact ⟨f, rest, hf, hs, hrest, (ih rest).1 h⟩
    · rintro ⟨f, rest, ⟨ws, sg, ds, rfl, hws, hsg, hne, hds⟩, rfl, hrest, hk⟩
      simp only [scanFields, scan_lu_field ws sg ds rest hws hsg hne hds hrest,
        List.length_cons, scanFields_dropWhile, (ih rest).2 hk]

theorem matchLiteral_eq_some (lit : List Char) : ∀ (s rest : List Char),
    matchLiteral lit s = some rest ↔ s = lit ++ rest := by
  induction lit with
  | nil => intro s rest; simp [matchLiteral, eq_comm]
  | cons l ls ih =>
    intro s rest
    cases s with
    | nil => simp [matchLiteral]
    | cons c cs =>
      by_cases h : c = l
      · simp [matchLiteral, h, ih]
      · simp [matchLiteral, h]

theorem startsWithFields_dropWhile (k : Nat) (s : List Char) :
    StartsWithFields k (s.dropWhile isspace) ↔ StartsWithFields k s := by
  rw [← scanFields_length_iff, ← scanFields_length_iff, scanFields_dropWhile]

/-- The call to `sscanf` assigns seven values exactly on the buffers of the accepted shape. -/
theorem sscanf_cpu_length_iff (buffer : List Char) :
    (sscanf_cpu buffer).length = 7 ↔ CounterLineShape buffer := by
  unfold sscanf_cpu CounterLineShape
  cases hm : matchLiteral "cpu".toList buffer with
  | none =>
    simp only [List.length_nil]
    constructor
    · intro h; omega
    · rintro ⟨rest, hb, -⟩
      rw [(matchLiteral_eq_some _ _ _).2 hb] at hm
      cases hm
  | some rest =>
    have hb := (matchLiteral_eq_some _ _ _).1 hm
    simp only [scanFields_length_iff, startsWithFields_dropWhile]
    constructor
    · intro h; exact ⟨rest, hb, h⟩
    · rintro ⟨rest', hb', h⟩
      have : rest = rest' := List.append_cancel_left (hb.symm.trans hb')
      rw [this]; exact h

theorem length_eq_seven {l : List Nat} (h : l.length = 7) :
    ∃ t0 t1 t2 t3 t4 t5 t6, l = [t0, t1, t2, t3, t4, t5, t6] := by
  match l, h with
  | [t0, t1, t2, t3, t4, t5, t6], _ => exact ⟨t0, t1, t2, t3, t4, t5, t6, rfl⟩

/-! ## Lemmas on `fgets` and on the counter line -/

theorem fgetsAux_append (p : List Char) : ∀ (n : Nat) (t : List Char), '\n' ∉ p →
    p.length ≤ n → fgetsAux n (p ++ t) = p ++ fgetsAux (n - p.length) t := by
  induction p with
  | nil => intro n t _ _; simp
  | cons a p ih =>
    intro n t hnl hlen
    cases n with
    | zero => simp at hlen
    | succ n =>
      have ha : a ≠ '\n' := fun e => hnl (e ▸ List.mem_cons_self _ _)
      have hp : '\n' ∉ p := fun h => hnl (List.mem_cons_of_mem _ h)
      have e := ih n t hp (by simpa using hlen)
      simp only [List.cons_append, fgetsAux, ha, if_false, List.length_cons,
        Nat.add_sub_add_right]
      exact congrArg _ e

theorem noLeadingDigit_fgetsAux (n : Nat) (t : List Char) (h : NoLeadingDigit t) :
    NoLeadingDigit (fgetsAux n t) := by
  cases n with
  | zero => intro c hc; simp [fgetsAux] at hc
  | succ n =>
    cases t with
    | nil => intro c hc; simp [fgetsAux] at hc
    | cons a t =>
      intro c hc
      apply h c
      by_cases ha : a = '\n'
      · simpa [fgetsAux, ha] using hc
      · simpa [fgetsAux, ha] using hc

/-- The fields of a counter line hold no newline and at most 21 characters per value. -/
theorem fieldsText_bounds (vs : List Nat) (hvs : ∀ v ∈ vs, v < ULONG_MOD) :
    '\n' ∉ (vs.map (fun v => ' ' :: Nat.toDigits 10 v)).flatten
      ∧ ((vs.map (fun v => ' ' :: Nat.toDigits 10 v)).flatten).length ≤ 21 * vs.length := by
  induction vs with
  | nil => simp
  | cons v vs ih =>
    obtain ⟨h1, h2⟩ := ih (fun w hw => hvs w (List.mem_cons_of_mem _ hw))
    have hlen := toDigits_length_le v (hvs v (List.mem_cons_self _ _))
    constructor
    · simp only [List.map_cons, List.flatten_cons, List.cons_append, List.mem_cons,
        List.mem_append, not_or]
      refine ⟨by decide, ?_, h1⟩
      intro hmem
      have := isDigit_of_mem_toDigits v _ hmem
      revert this; decide
    · simp only [List.map_cons, List.flatten_cons, List.cons_append, List.length_cons,
        List.length_append]
      omega

theorem noLeadingDigit_fieldsText (vs : List Nat) (tail : List Char)
    (htail : NoLeadingDigit tail) :
    NoLeadingDigit ((vs.map (fun v => ' ' :: Nat.toDigits 10 v)).flatten ++ tail) := by
  cases vs with
  | nil => simpa using htail
  | cons v vs =>
    intro c hc
    simp only [List.map_cons, List.flatten_cons, List.cons_append, List.head?_cons,
      Option.some.injEq] at hc
    rw [← hc]; decide

theorem strtoul_value_toDigits (v : Nat) (hv : v < ULONG_MOD) :
    strtoul_value false (Nat.toDigits 10 v) = v := by
  have h : ¬ ULONG_MAX < v := by simp only [ULONG_MAX, ULONG_MOD] at *; omega
  simp [strtoul_value, digitsValue_toDigits, h]

/-- Scanning the fields of a counter line gives back the values. -/
theorem scanFields_fieldsText (vs : List Nat) (tail : List Char)
    (hvs : ∀ v ∈ vs, v < ULONG_MOD) (htail : NoLeadingDigit tail) :
    scanFields vs.length ((vs.map (fun v => ' ' :: Nat.toDigits 10 v)).flatten ++ tail) = vs := by
  induction vs with
  | nil => rfl
  | cons v vs ih =>
    have hv := hvs v (List.mem_cons_self _ _)
    have hscan := scan_lu_field [' '] [] (Nat.toDigits 10 v)
      ((vs.map (fun v => ' ' :: Nat.toDigits 10 v)).flatten ++ tail)
      (by decide) (Or.inl rfl) (toDigits_ne_nil v) (isDigit_of_mem_toDigits v)
      (noLeadingDigit_fieldsText vs tail htail)
    have hdec : decide (([] : List Char) = ['-']) = false := by decide
    rw [hdec, strtoul_value_toDigits v hv] at hscan
    simp only [List.append_nil, List.singleton_append, List.cons_append, List.nil_append]
      at hscan
    simp only [List.map_cons, List.flatten_cons, List.cons_append, List.length_cons,
      List.append_assoc, scanFields, hscan, scanFields_dropWhile]
    rw [ih (fun w hw => hvs w (List.mem_cons_of_mem _ hw))]

/-- The call to `sscanf` on a counter line of seven values, whatever follows the line. -/
theorem sscanf_cpu_counterLine (vs : List Nat) (tail : List Char) (hlen : vs.length = 7)
    (hvs : ∀ v ∈ vs, v < ULONG_MOD) (htail : NoLeadingDigit tail) :
    sscanf_cpu (counterLine vs ++ tail) = vs := by
  have hm : matchLiteral "cpu".toList (counterLine vs ++ tail)
      = some (' ' :: ((vs.map (fun v => ' ' :: Nat.toDigits 10 v)).flatten ++ tail)) := by
    rw [matchLiteral_eq_some]
    simp [counterLine]
  simp only [sscanf_cpu, hm, scanFields_dropWhile]
  have hsp : scanFields 7 (' ' :: ((vs.map (fun v => ' ' :: Nat.toDigits 10 v)).flatten ++ tail))
      = scanFields 7 ((vs.map (fun v => ' ' :: Nat.toDigits 10 v)).flatten ++ tail) := by
    rw [← scanFields_dropWhile 7 (' ' :: _)]
    simp only [List.dropWhile_cons, show isspace ' ' = true from by decide, if_true]
    rw [scanFields_dropWhile]
  rw [hsp, ← hlen]
  exact scanFields_fieldsText vs tail hvs htail

theorem fgets_counterLine (vs : List Nat) (tail : List Char) (hlen : vs.length = 7)
    (hvs : ∀ v ∈ vs, v < ULONG_MOD) :
    fgets 1024 (counterLine vs ++ tail)
      = some (counterLine vs ++ fgetsAux (1023 - (counterLine vs).length) tail) := by
  obtain ⟨h1, h2⟩ := fieldsText_bounds vs hvs
  have hne : counterLine vs ++ tail ≠ [] := by simp [counterLine]
  have hnl : '\n' ∉ counterLine vs := by
    simp only [counterLine, List.mem_append, not_or]
    exact ⟨by decide, h1⟩
  have hl : (counterLine vs).length ≤ 1023 := by
    simp only [counterLine, List.length_append]
    have : ("cpu ".toList).length = 4 := by decide
    omega
  simp only [fgets, hne, if_false]
  rw [fgetsAux_append _ _ _ hnl hl]

/-! ## Theorems: counter reader -/

theorem get_cpu_ok_iff (fp buffer : List Char) (hbuf : fgets 1024 fp = some buffer) :
    (∃ snapshot, get_cpu_idle_total_times (some fp) = .ok snapshot)
      ↔ (sscanf_cpu buffer).length = 7 := by
  simp only [get_cpu_idle_total_times, hbuf]
  constructor
  · rintro ⟨snapshot, h⟩
    split at h
    · simp [*]
    · cases h
  · intro h
    obtain ⟨t0, t1, t2, t3, t4, t5, t6, e⟩ := length_eq_seven h
    rw [e]
    exact ⟨_, rfl⟩

theorem get_cpu_error_of_not (fp buffer : List Char) (hbuf : fgets 1024 fp = some buffer)
    (h : (sscanf_cpu buffer).length ≠ 7) :
    get_cpu_idle_total_times (some fp)
      = .error ⟨EXIT_FAILURE, "Error: Expected to read 7 CPU time values\n"⟩ := by
  simp only [get_cpu_idle_total_times, hbuf]
  split
  · rename_i e; rw [e] at h; simp at h
  · rfl

/-- C3: for every counter line made of `cpu`, two spaces and the seven values user, nice,
system, idle, iowait, irq, softirq in decimal, whatever follows the line (a newline, further
fields, further lines), `get_cpu_idle_total_times` yields the fourth value as `idle_time` and
the sum of the seven values modulo `2 ^ 64` as `total_time`. -/
theorem counter_line_snapshot (user nice system idle iowait irq softirq : Nat)
    (h0 : user < ULONG_MOD) (h1 : nice < ULONG_MOD) (h2 : system < ULONG_MOD)
    (h3 : idle < ULONG_MOD) (h4 : iowait < ULONG_MOD) (h5 : irq < ULONG_MOD)
    (h6 : softirq < ULONG_MOD) (tail : List Char) (htail : NoLeadingDigit tail) :
    get_cpu_idle_total_times
        (some (counterLine [user, nice, system, idle, iowait, irq, softirq] ++ tail))
      = .ok (idle, (user + nice + system + idle + iowait + irq + softirq) % ULONG_MOD) := by
  have hvs : ∀ v ∈ [user, nice, system, idle, iowait, irq, softirq], v < ULONG_MOD := by
    intro v hv
    simp only [List.mem_cons, List.mem_singleton, List.not_mem_nil, or_false] at hv
    rcases hv with rfl | rfl | rfl | rfl | rfl | rfl | rfl <;> assumption
  have hf := fgets_counterLine [user, nice, system, idle, iowait, irq, softirq] tail rfl hvs
  have hs := sscanf_cpu_counterLine [user, nice, system, idle, iowait, irq, softirq] _ rfl hvs
    (noLeadingDigit_fgetsAux (1023 - (counterLine [user, nice, system, idle, iowait, irq,
      softirq]).length) tail htail)
  simp only [get_cpu_idle_total_times, hf, hs, ulong_add]
  congr 2
  simp only [ULONG_MOD]
  omega

/-- Witness for C3: the line `cpu  10 20 30 40 50 60 70 0 0 0`. -/
theorem counter_line_snapshot_witness :
    get_cpu_idle_total_times (some (counterLine [10, 20, 30, 40, 50, 60, 70] ++ " 0 0 0\n".toList))
      = .ok (40, (10 + 20 + 30 + 40 + 50 + 60 + 70) % ULONG_MOD) :=
  counter_line_snapshot 10 20 30 40 50 60 70 (by decide) (by decide) (by decide) (by decide)
    (by decide) (by decide) (by decide) _ (by intro c hc; cases hc; decide)

/-- C4 as stated fails: the line `cpu  10 20 30 40 50 60 70 0 0 0` has ten numbers, so it is
not of the shape the specification names, yet the reader accepts it and produces the
snapshot `(40, 280)`. -/
theorem counter_line_shape_counterexample :
    specCounterLineShape "cpu  10 20 30 40 50 60 70 0 0 0\n".toList = false
      ∧ get_cpu_idle_total_times (some "cpu  10 20 30 40 50 60 70 0 0 0\n".toList)
          = .ok (40, 280) := by
  constructor
  · decide
  · rfl

/-- C4 (amended): `get_cpu_idle_total_times` accepts the first line of the counter source if
and only if the buffer read from it is `cpu` followed by seven number tokens (optional white
space, an optional sign, one or more digits, each token ending where its digits end) and then
anything, in particular further numbers; for every other buffer it exits with the failure
status and the parse diagnostic, producing no snapshot. -/
theorem counter_line_accepted_iff (fp buffer : List Char) (hbuf : fgets 1024 fp = some buffer) :
    ((∃ snapshot, get_cpu_idle_total_times (some fp) = .ok snapshot) ↔ CounterLineShape buffer)
      ∧ (¬ CounterLineShape buffer →
          get_cpu_idle_total_times (some fp)
            = .error ⟨EXIT_FAILURE, "Error: Expected to read 7 CPU time values\n"⟩) := by
  constructor
  · rw [get_cpu_ok_iff fp buffer hbuf, sscanf_cpu_length_iff]
  · intro h
    exact get_cpu_error_of_not fp buffer hbuf (fun e => h ((sscanf_cpu_length_iff buffer).1 e))

/-- Witness for C4: a line with six numbers is rejected with the parse diagnostic. -/
theorem counter_line_accepted_iff_witness :
    ¬ CounterLineShape "cpu  10 20 30 40 50 60\n".toList
      ∧ get_cpu_idle_total_times (some "cpu  10 20 30 40 50 60\n".toList)
          = .error ⟨EXIT_FAILURE, "Error: Expected to read 7 CPU time values\n"⟩ := by
  have hn : ¬ CounterLineShape "cpu  10 20 30 40 50 60\n".toList := by
    rw [← sscanf_cpu_length_iff]; decide
  exact ⟨hn, (counter_line_accepted_iff "cpu  10 20 30 40 50 60\n".toList
    "cpu  10 20 30 40 50 60\n".toList rfl).2 hn⟩

/-! ## Theorems: memory statistics -/

theorem ulong_add_of_lt {a b : Nat} (h : a + b < ULONG_MOD) : ulong_add a b = a + b :=
  Nat.mod_eq_of_lt h

theorem ulong_add_cast (a b : Nat) : ((ulong_add a b : Nat) : ℤ) = ((a : ℤ) + b) % 2 ^ 64 := by
  simp only [ulong_add, ULONG_MOD]
  omega

/-- The factor is the power of two `2 ^ (-30)`, a `double`. -/
theorem bytes_to_gb_eq : bytes_to_gb = 1 / 1024 ^ 3 := by
  decide!

theorem bytes_to_gb_pos : 0 < bytes_to_gb := by
  rw [bytes_to_gb_eq]; norm_num

/-- A byte count stored in gigabytes: the count converted to `double`, times the factor. -/
theorem gb_eq (n : Nat) :
    double_mul (ulong_to_double n) bytes_to_gb = fl (fl (n : ℚ) / 1024 ^ 3) := by
  unfold double_mul ulong_to_double
  rw [bytes_to_gb_eq, mul_one_div]

theorem gb_nonneg (n : Nat) : 0 ≤ double_mul (ulong_to_double n) bytes_to_gb :=
  fl_nonneg _ (mul_nonneg (fl_nonneg _ (Nat.cast_nonneg n)) bytes_to_gb_pos.le)

theorem gb_mono {a b : Nat} (h : a ≤ b) :
    double_mul (ulong_to_double a) bytes_to_gb ≤ double_mul (ulong_to_double b) bytes_to_gb :=
  fl_mono_nonneg (mul_nonneg (fl_nonneg _ (Nat.cast_nonneg a)) bytes_to_gb_pos.le)
    (mul_le_mul_of_nonneg_right
      (fl_mono_nonneg (Nat.cast_nonneg a) (by exact_mod_cast h)) bytes_to_gb_pos.le)

/-- Below `2 ^ 53` bytes neither the conversion nor the scaling rounds. -/
theorem gb_of_small (n : Nat) (h : n < 2 ^ 53) :
    double_mul (ulong_to_double n) bytes_to_gb = (n : ℚ) / 1024 ^ 3 := by
  rw [gb_eq, fl_natCast n h]
  have hn : (n : ℚ) < 2 ^ 53 := by exact_mod_cast h
  have e : (n : ℚ) / 1024 ^ 3 = ((n : ℤ) : ℚ) * 2 ^ (-30 : ℤ) := by
    rw [Int.cast_natCast]; norm_num [div_eq_mul_inv]
  apply fl_eq_of _ (n : ℤ) (-30) (by norm_num) _ e
  rw [abs_of_nonneg (div_nonneg (Nat.cast_nonneg n) (by norm_num))]
  have : (2 : ℚ) ^ ((-30 : ℤ) + 53) = 2 ^ 53 / 1024 ^ 3 := by norm_num
  rw [this]
  exact div_lt_div_of_pos_right hn (by norm_num)

/-- The sample `gather_memory_stats` stores, for a reading that does not wrap around. -/
theorem gather_memory_stats_nowrap (info : SysInfo) (arr : Nat → MemoryStats) (index : Nat)
    (hram : info.freeram ≤ info.totalram) (hswap : info.freeswap ≤ info.totalswap)
    (hfit : info.totalram + info.totalswap < ULONG_MOD) :
    gather_memory_stats (some info) arr index
      = .ok (Function.update arr index
          { phys_used :=
              double_mul (ulong_to_double (info.totalram - info.freeram)) bytes_to_gb
            phys_total := double_mul (ulong_to_double info.totalram) bytes_to_gb
            virt_used :=
              double_mul (ulong_to_double
                (info.totalram - info.freeram + (info.totalswap - info.freeswap))) bytes_to_gb
            virt_total :=
              double_mul (ulong_to_double (info.totalram + info.totalswap)) bytes_to_gb }) := by
  have h1 : ulong_sub info.totalram info.freeram = info.totalram - info.freeram :=
    ulong_sub_of_le (by omega) hram
  have h2 : ulong_add (info.totalram - info.freeram) info.totalswap
      = info.totalram - info.freeram + info.totalswap := ulong_add_of_lt (by omega)
  have h3 : ulong_sub (info.totalram - info.freeram + info.totalswap) info.freeswap
      = info.totalram - info.freeram + (info.totalswap - info.freeswap) := by
    rw [ulong_sub_of_le (by omega) (by omega)]; omega
  have h4 : ulong_add info.totalram info.totalswap = info.totalram + info.totalswap :=
    ulong_add_of_lt hfit
  simp only [gather_memory_stats, h1, h2, h3, h4]

/-- C5 as stated fails: for the reading `totalRAM = totalSwap = 2 ^ 63` the sum wraps around in
`unsigned long`, so the stored `virt_total` is `0` and not `(totalRAM + totalSwap) / 1024 ^ 3`;
and for `totalRAM = 2 ^ 53 + 1`, where nothing wraps, the conversion to `double` rounds and the
stored `phys_total` is `8388608`, not `(2 ^ 53 + 1) / 1024 ^ 3`. -/
theorem memory_figures_counterexample :
    (∃ arr, gather_memory_stats (some ⟨2 ^ 63, 0, 2 ^ 63, 0⟩) (fun _ => ⟨0, 0, 0, 0⟩) 0 = .ok arr
      ∧ (arr 0).virt_total = 0
      ∧ (arr 0).virt_total ≠ ((2 : ℚ) ^ 63 + (2 : ℚ) ^ 63) / 1024 ^ 3)
    ∧ (∃ arr, gather_memory_stats (some ⟨2 ^ 53 + 1, 0, 0, 0⟩) (fun _ => ⟨0, 0, 0, 0⟩) 0
        = .ok arr
      ∧ (arr 0).phys_total = 8388608
      ∧ (arr 0).phys_total ≠ ((2 : ℚ) ^ 53 + 1) / 1024 ^ 3) :=
  ⟨⟨_, rfl, by decide!, by decide!⟩, ⟨_, rfl, by decide!, by decide!⟩⟩

/-- C5 (amended): for every reading of `unsigned long` byte counts, `gather_memory_stats`
returns and stores at the given index, leaving every other index unchanged, the four figures
`(totalRAM - freeRAM) / 1024 ^ 3`, `totalRAM / 1024 ^ 3`,
`(totalRAM - freeRAM + totalSwap - freeSwap) / 1024 ^ 3` and
`(totalRAM + totalSwap) / 1024 ^ 3` computed in machine arithmetic: the sums and differences
reduced modulo `2 ^ 64`, converted to `double`, and scaled in `double`; for a reading with
`freeRAM ≤ totalRAM`, `freeSwap ≤ totalSwap` and `totalRAM + totalSwap < 2 ^ 53` these are the
exact values of the four figures. -/
theorem memory_figures (info : SysInfo) (arr : Nat → MemoryStats) (index : Nat)
    (htr : info.totalram < ULONG_MOD) (hfr : info.freeram < ULONG_MOD)
    (hfs : info.freeswap < ULONG_MOD) :
    ∃ arr', gather_memory_stats (some info) arr index = .ok arr'
      ∧ (arr' index).phys_used
          = fl (fl (((((info.totalram : ℤ) - info.freeram) % 2 ^ 64 : ℤ)) : ℚ) / 1024 ^ 3)
      ∧ (arr' index).phys_total = fl (fl (info.totalram : ℚ) / 1024 ^ 3)
      ∧ (arr' index).virt_used
          = fl (fl (((((info.totalram : ℤ) - info.freeram + info.totalswap - info.freeswap)
              % 2 ^ 64 : ℤ)) : ℚ) / 1024 ^ 3)
      ∧ (arr' index).virt_total
          = fl (fl (((((info.totalram : ℤ) + info.totalswap) % 2 ^ 64 : ℤ)) : ℚ) / 1024 ^ 3)
      ∧ (∀ j, j ≠ index → arr' j = arr j)
      ∧ (info.freeram ≤ info.totalram → info.freeswap ≤ info.totalswap →
          info.totalram + info.totalswap < 2 ^ 53 →
          (arr' index).phys_used = ((info.totalram : ℚ) - info.freeram) / 1024 ^ 3
          ∧ (arr' index).phys_total = (info.totalram : ℚ) / 1024 ^ 3
          ∧ (arr' index).virt_used
              = ((info.totalram : ℚ) - info.freeram + info.totalswap - info.freeswap) / 1024 ^ 3
          ∧ (arr' index).virt_total = ((info.totalram : ℚ) + info.totalswap) / 1024 ^ 3) := by
  have c1 : ((ulong_sub info.totalram info.freeram : Nat) : ℤ)
      = ((info.totalram : ℤ) - info.freeram) % 2 ^ 64 := ulong_sub_cast htr hfr
  have c2 : ((ulong_sub (ulong_add (ulong_sub info.totalram info.freeram) info.totalswap)
        info.freeswap : Nat) : ℤ)
      = ((info.totalram : ℤ) - info.freeram + info.totalswap - info.freeswap) % 2 ^ 64 := by
    have hlt : ulong_add (ulong_sub info.totalram info.freeram) info.totalswap < ULONG_MOD :=
      Nat.mod_lt _ (by decide)
    rw [ulong_sub_cast hlt hfs, ulong_add_cast, c1]
    omega
  have c3 := ulong_add_cast info.totalram info.totalswap
  refine ⟨_, rfl, ?_, ?_, ?_, ?_, ?_, ?_⟩
  · simp only [Function.update_same, gb_eq, ← c1, Int.cast_natCast]
  · simp only [Function.update_same, gb_eq]
  · simp only [Function.update_same, gb_eq, ← c2, Int.cast_natCast]
  · simp only [Function.update_same, gb_eq, ← c3, Int.cast_natCast]
  · intro j hj; exact Function.update_noteq hj _ _
  · intro hram hswap hfit
    have hfit2 : info.totalram + info.totalswap < ULONG_MOD :=
      lt_trans hfit (by decide)
    have e := gather_memory_stats_nowrap info arr index hram hswap hfit2
    simp only [gather_memory_stats, Except.ok.injEq] at e
    rw [e]
    simp only [Function.update_same]
    refine ⟨?_, ?_, ?_, ?_⟩
    · rw [gb_of_small _ (by omega), Nat.cast_sub hram]
    · rw [gb_of_small _ (by omega)]
    · rw [gb_of_small _ (by omega), Nat.cast_add, Nat.cast_sub hram, Nat.cast_sub hswap]; ring
    · rw [gb_of_small _ (by omega), Nat.cast_add]

/-- Witness for C5: `totalRAM = 8 * 1024 ^ 3` and `freeRAM = 2 * 1024 ^ 3` give `physUsed = 6`,
printed `6.00`, and `physTotal = 8`, printed `8.00`. -/
theorem memory_figures_witness :
    ∃ arr', gather_memory_stats (some ⟨8 * 1024 ^ 3, 2 * 1024 ^ 3, 0, 0⟩)
        (fun _ => ⟨0, 0, 0, 0⟩) 0 = .ok arr'
      ∧ (arr' 0).phys_used = 6 ∧ (arr' 0).phys_total = 8
      ∧ fmt2 (arr' 0).phys_used = "6.00".toList ∧ fmt2 (arr' 0).phys_total = "8.00".toList := by
  obtain ⟨arr', h, -, -, -, -, -, h3⟩ := memory_figures ⟨8 * 1024 ^ 3, 2 * 1024 ^ 3, 0, 0⟩
    (fun _ => ⟨0, 0, 0, 0⟩) 0 (by decide) (by decide) (by decide)
  obtain ⟨h1, h2, -, -⟩ := h3 (by decide) (by decide) (by decide)
  have e1 : (arr' 0).phys_used = 6 := by rw [h1]; norm_num
  have e2 : (arr' 0).phys_total = 8 := by rw [h2]; norm_num
  refine ⟨arr', h, e1, e2, ?_, ?_⟩
  · rw [e1]; decide!
  · rw [e2]; decide!

/-- C6 as stated fails: the reading `totalRAM = totalSwap = 2 ^ 63`, `freeRAM = 1`,
`freeSwap = 0` satisfies `freeRAM ≤ totalRAM` and `freeSwap ≤ totalSwap`, but `virt_total` wraps
around to `0` while `virt_used` is `(2 ^ 64 - 1) / 1024 ^ 3`. -/
theorem memory_invariant_counterexample :
    (1 : Nat) ≤ 2 ^ 63 ∧ (0 : Nat) ≤ 2 ^ 63
      ∧ ∃ arr, gather_memory_stats (some ⟨2 ^ 63, 1, 2 ^ 63, 0⟩) (fun _ => ⟨0, 0, 0, 0⟩) 0
            = .ok arr
          ∧ ¬ (arr 0).virt_used ≤ (arr 0).virt_total :=
  ⟨by decide, by decide, _, rfl, by decide!⟩

/-- C6 (amended): for every reading with `freeRAM ≤ totalRAM`, `freeSwap ≤ totalSwap` and
`totalRAM + totalSwap < 2 ^ 64`, the sample `gather_memory_stats` writes has four non-negative
fields, `physUsed ≤ physTotal` and `virtUsed ≤ virtTotal`. -/
theorem memory_invariant (info : SysInfo) (arr : Nat → MemoryStats) (index : Nat)
    (hram : info.freeram ≤ info.totalram) (hswap : info.freeswap ≤ info.totalswap)
    (hfit : info.totalram + info.totalswap < ULONG_MOD) :
    ∃ arr', gather_memory_stats (some info) arr index = .ok arr'
      ∧ 0 ≤ (arr' index).phys_used ∧ 0 ≤ (arr' index).phys_total
      ∧ 0 ≤ (arr' index).virt_used ∧ 0 ≤ (arr' index).virt_total
      ∧ (arr' index).phys_used ≤ (arr' index).phys_total
      ∧ (arr' index).virt_used ≤ (arr' index).virt_total := by
  refine ⟨_, gather_memory_stats_nowrap info arr index hram hswap hfit, ?_, ?_, ?_, ?_, ?_, ?_⟩
  all_goals simp only [Function.update_same]
  · exact gb_nonneg _
  · exact gb_nonneg _
  · exact gb_nonneg _
  · exact gb_nonneg _
  · exact gb_mono (Nat.sub_le _ _)
  · exact gb_mono (by omega)

/-- Witness for C6: 8 GiB of memory with 2 GiB free, 1 GiB of swap, all of it free. -/
theorem memory_invariant_witness :
    ∃ arr', gather_memory_stats (some ⟨8 * 1024 ^ 3, 2 * 1024 ^ 3, 1024 ^ 3, 1024 ^ 3⟩)
        (fun _ => ⟨0, 0, 0, 0⟩) 0 = .ok arr'
      ∧ 0 ≤ (arr' 0).phys_used ∧ 0 ≤ (arr' 0).phys_total
      ∧ 0 ≤ (arr' 0).virt_used ∧ 0 ≤ (arr' 0).virt_total
      ∧ (arr' 0).phys_used ≤ (arr' 0).phys_total
      ∧ (arr' 0).virt_used ≤ (arr' 0).virt_total :=
  memory_invariant ⟨8 * 1024 ^ 3, 2 * 1024 ^ 3, 1024 ^ 3, 1024 ^ 3⟩ (fun _ => ⟨0, 0, 0, 0⟩) 0
    (by decide) (by decide) (by decide)

/-! ## Lemmas on the rendering -/

theorem barLoop_eq (glyph : Char) (bars : ℤ) : ∀ fuel j : Nat,
    barLoop glyph bars fuel j
      = List.replicate (min fuel (min (bars.toNat - j) (100 - j))) glyph := by
  intro fuel
  induction fuel with
  | zero => intro j; simp [barLoop]
  | succ fuel ih =>
    intro j
    simp only [barLoop]
    split_ifs with h
    · rw [ih (j + 1)]
      have h1 : j < bars.toNat := by omega
      have e : min (fuel + 1) (min (bars.toNat - j) (100 - j))
          = min fuel (min (bars.toNat - (j + 1)) (100 - (j + 1))) + 1 := by omega
      rw [e, List.replicate_succ]
    · have e : min (fuel + 1) (min (bars.toNat - j) (100 - j)) = 0 := by omega
      rw [e]; rfl

theorem double_to_int_abs (x : ℚ) :
    double_to_int (double_mul |x| 100) = ⌊double_mul |x| 100⌋ := by
  have h : (0 : ℚ) ≤ double_mul |x| 100 :=
    fl_nonneg _ (mul_nonneg (abs_nonneg x) (by norm_num))
  simp [double_to_int, h]

theorem append_graphical_text (diff cur : ℚ) :
    (append_graphical_representation diff cur).1
      = "   |".toList ++ deltaGlyphs diff ++ " ".toList ++ fmt2 diff ++ " (".toList ++ fmt2 cur
          ++ ")".toList := by
  simp only [append_graphical_representation, deltaGlyphs, double_to_int_abs, barLoop_eq]
  have e : min 100 (min (⌊double_mul |diff| 100⌋.toNat - 0) (100 - 0))
      = min ⌊double_mul |diff| 100⌋.toNat 100 := by
    omega
  rw [e]

theorem fmt2_chars (x : ℚ) : ∀ c ∈ fmt2 x, c = '-' ∨ c = '.' ∨ c.isDigit = true := by
  intro c hc
  simp only [fmt2, List.mem_append, List.mem_cons, List.mem_singleton, List.not_mem_nil,
    or_false] at hc
  rcases hc with (hc | hc) | hc
  · split_ifs at hc
    · left; simpa using hc
    · simp at hc
  · right; right; exact isDigit_of_mem_toDigits _ c hc
  · rcases hc with rfl | rfl | rfl
    · right; left; rfl
    · right; right
      exact digitChar_isDigit _ (by omega)
    · right; right
      exact digitChar_isDigit _ (Nat.mod_lt _ (by decide))

theorem newline_not_mem_fmt2 (x : ℚ) : '\n' ∉ fmt2 x := by
  intro h
  rcases fmt2_chars x _ h with h | h | h <;> revert h <;> decide

theorem fmt2_ne_nil (x : ℚ) : fmt2 x ≠ [] := by
  simp [fmt2]

theorem newline_not_mem_memoryLine (m : MemoryStats) : '\n' ∉ memoryLine m := by
  simp only [memoryLine, List.mem_append, not_or]
  exact ⟨⟨⟨⟨⟨⟨⟨newline_not_mem_fmt2 _, by decide⟩, newline_not_mem_fmt2 _⟩, by decide⟩,
    newline_not_mem_fmt2 _⟩, by decide⟩, newline_not_mem_fmt2 _⟩, by decide⟩

theorem newline_not_mem_deltaGlyphs (diff : ℚ) : '\n' ∉ deltaGlyphs diff := by
  unfold deltaGlyphs
  split_ifs
  · simp only [List.mem_append, List.mem_replicate, not_or]
    exact ⟨fun h => absurd h.2 (by decide), by decide⟩
  · simp only [List.mem_append, List.mem_replicate, not_or]
    exact ⟨fun h => absurd h.2 (by decide), by decide⟩
  · decide

theorem newline_not_mem_graphical (diff cur : ℚ) :
    '\n' ∉ (append_graphical_representation diff cur).1 := by
  rw [append_graphical_text]
  simp only [List.mem_append, not_or]
  exact ⟨⟨⟨⟨⟨⟨by decide, newline_not_mem_deltaGlyphs _⟩, by decide⟩, newline_not_mem_fmt2 _⟩,
    by decide⟩, newline_not_mem_fmt2 _⟩, by decide⟩

theorem newline_not_mem_sampleLine (m : MemoryStats) (diff : ℚ) (g : Bool) :
    '\n' ∉ sampleLine m diff g := by
  simp only [sampleLine, List.mem_append, not_or]
  refine ⟨newline_not_mem_memoryLine m, ?_⟩
  split_ifs
  · exact newline_not_mem_graphical _ _
  · simp

theorem sampleLine_ne_nil (m : MemoryStats) (diff : ℚ) (g : Bool) : sampleLine m diff g ≠ [] := by
  simp [sampleLine, memoryLine, fmt2_ne_nil]

theorem printSample_fst (m : MemoryStats) (diff : ℚ) (g : Bool) (st : List Char × ℚ) :
    (printSample m diff g st).1 = st.1 ++ sampleLine m diff g ++ ['\n'] := by
  cases g <;> simp [printSample, sampleLine]

theorem printSample_snd (m : MemoryStats) (diff : ℚ) (g : Bool) (st : List Char × ℚ) :
    (printSample m diff g st).2 = if g then m.virt_used else st.2 := by
  cases g <;> simp [printSample, append_graphical_representation]

/-- Text printed by the loop over the samples shown in cumulative mode. -/
theorem cumulative_loop_fst (arr : Nat → MemoryStats) (g : Bool) (l : List Nat) :
    ∀ st : List Char × ℚ,
    (l.foldl (fun st i =>
        let diff : ℚ :=
          if i = 0 then 0 else double_sub (arr i).virt_used (arr (i - 1)).virt_used
        printSample (arr i) diff g st) st).1
      = st.1 ++ (l.map (fun k => sampleLine (arr k) (cumulativeDiff arr k) g ++ ['\n'])).flatten := by
  induction l with
  | nil => intro st; simp
  | cons a l ih =>
    intro st
    simp only [List.foldl_cons, List.map_cons, List.flatten_cons]
    rw [ih, printSample_fst]
    simp [cumulativeDiff]

/-- A loop that prints one newline per element. -/
theorem padding_loop {α : Type} (l : List α) : ∀ st : List Char × ℚ,
    l.foldl (fun st _ => (st.1 ++ ['\n'], st.2)) st
      = (st.1 ++ List.replicate l.length '\n', st.2) := by
  induction l with
  | nil => intro st; simp
  | cons a l ih =>
    intro st
    simp only [List.foldl_cons, List.length_cons]
    rw [ih]
    simp [List.replicate_succ]

theorem display_fst_eq (arr : Nat → MemoryStats) (N i : Nat) (g : Bool)
    (st1 : List Char × ℚ) :
    (if g ∧ (i : ℤ) < (N : ℤ) - 1 then (st1.1, (arr i).virt_used) else st1).1 = st1.1 := by
  split_ifs <;> rfl

/-! ## Theorems: rendering of the memory block -/

/-- Text of the cumulative block. -/
theorem cumulative_text (arr : Nat → MemoryStats) (N i : Nat) (g : Bool) (prev : ℚ) :
    (display_memory_stats arr N i false g prev).1
      = memoryHeader
        ++ ((List.range (i + 1)).map
            (fun k => sampleLine (arr k) (cumulativeDiff arr k) g ++ ['\n'])).flatten
        ++ List.replicate (N - (i + 1)) '\n' := by
  unfold display_memory_stats
  rw [display_fst_eq arr N i g]
  simp only [Bool.false_eq_true, if_false]
  rw [padding_loop, cumulative_loop_fst]
  simp

theorem count_newline_lines (lines : List (List Char)) (h : ∀ l ∈ lines, '\n' ∉ l) :
    ((lines.map (fun l => l ++ ['\n'])).flatten).count '\n' = lines.length := by
  induction lines with
  | nil => rfl
  | cons a t ih =>
    have ha : a.count '\n' = 0 := List.count_eq_zero.2 (h a (List.mem_cons_self _ _))
    simp only [List.map_cons, List.flatten_cons, List.count_append, List.length_cons, ha,
      ih (fun l hl => h l (List.mem_cons_of_mem _ hl))]
    simp
    omega

/-- C7: in cumulative mode, for `i < N`, `display_memory_stats` prints after its header the
sample lines of samples `0..i` in index order, each non-empty and without a newline inside,
then `N - 1 - i` empty lines; the block after the header has exactly `N` lines. -/
theorem cumulative_block (arr : Nat → MemoryStats) (N i : Nat) (g : Bool) (prev : ℚ)
    (hi : i < N) :
    (display_memory_stats arr N i false g prev).1
        = memoryHeader
          ++ ((List.range (i + 1)).map
              (fun k => sampleLine (arr k) (cumulativeDiff arr k) g ++ ['\n'])).flatten
          ++ List.replicate (N - 1 - i) '\n'
      ∧ (∀ k, sampleLine (arr k) (cumulativeDiff arr k) g ≠ []
          ∧ '\n' ∉ sampleLine (arr k) (cumulativeDiff arr k) g)
      ∧ ((display_memory_stats arr N i false g prev).1.drop memoryHeader.length).count '\n'
          = N := by
  have e : N - (i + 1) = N - 1 - i := by omega
  refine ⟨by rw [cumulative_text, e], fun k => ⟨sampleLine_ne_nil _ _ _,
    newline_not_mem_sampleLine _ _ _⟩, ?_⟩
  rw [cumulative_text, List.append_assoc, List.drop_left]
  have hmap : (List.range (i + 1)).map
        (fun k => sampleLine (arr k) (cumulativeDiff arr k) g ++ ['\n'])
      = ((List.range (i + 1)).map (fun k => sampleLine (arr k) (cumulativeDiff arr k) g)).map
          (fun l => l ++ ['\n']) := by
    rw [List.map_map]; rfl
  rw [List.count_append, hmap, count_newline_lines]
  · simp [List.count_replicate]
    omega
  · intro l hl
    obtain ⟨k, -, rfl⟩ := List.mem_map.1 hl
    exact newline_not_mem_sampleLine _ _ _

/-- The sequential loop over indices that are not the current one prints blank lines only. -/
theorem sequential_loop_others (arr : Nat → MemoryStats) (i : Nat) (g : Bool) (l : List Nat)
    (hl : ∀ k ∈ l, k ≠ i) : ∀ st : List Char × ℚ,
    l.foldl (fun st k =>
        if k = i then
          let diff : ℚ := if k = 0 then 0 else double_sub (arr k).virt_used st.2
          printSample (arr k) diff g st
        else (st.1 ++ ['\n'], st.2)) st
      = (st.1 ++ List.replicate l.length '\n', st.2) := by
  induction l with
  | nil => intro st; simp
  | cons a l ih =>
    intro st
    have ha : a ≠ i := hl a (List.mem_cons_self _ _)
    simp only [List.foldl_cons, ha, if_false, List.length_cons]
    rw [ih (fun k hk => hl k (List.mem_cons_of_mem _ hk))]
    simp [List.replicate_succ]

theorem range_split (N i : Nat) (hi : i < N) :
    List.range N = List.range i ++ i :: List.range' (i + 1) (N - 1 - i) := by
  have h1 : List.range' 0 i ++ List.range' (0 + i) (N - i) = List.range' 0 (N - i + i) :=
    List.range'_append_1 0 i (N - i)
  have h2 : N - i = (N - 1 - i) + 1 := by omega
  have h3 : N - i + i = N := by omega
  rw [h3] at h1
  rw [List.range_eq_range', List.range_eq_range', ← h1, h2, List.range'_succ]
  simp

/-- Text of the sequential block. -/
theorem sequential_text (arr : Nat → MemoryStats) (N i : Nat) (g : Bool) (prev : ℚ)
    (hi : i < N) :
    (display_memory_stats arr N i true g prev).1
      = memoryHeader ++ List.replicate i '\n'
        ++ sampleLine (arr i) (if i = 0 then 0 else double_sub (arr i).virt_used prev) g ++ ['\n']
        ++ List.replicate (N - 1 - i) '\n' := by
  unfold display_memory_stats
  rw [display_fst_eq arr N i g]
  simp only [if_true]
  rw [range_split N i hi, List.foldl_append, List.foldl_cons,
    sequential_loop_others arr i g (List.range i) (fun k hk => by
      have := List.mem_range.1 hk; omega)]
  simp only [if_true]
  rw [sequential_loop_others arr i g (List.range' (i + 1) (N - 1 - i)) (fun k hk => by
      have := (List.mem_range'_1.1 hk).1; omega)]
  simp only [printSample_fst, List.length_range, List.length_range']

/-- C8: in sequential mode, for `i < N`, `display_memory_stats` prints after its header `i`
empty lines, the line of sample `i` (non-empty, without a newline inside) and `N - 1 - i`
empty lines; the text is the same for every array that agrees at index `i`. -/
theorem sequential_block (arr : Nat → MemoryStats) (N i : Nat) (g : Bool) (prev : ℚ)
    (hi : i < N) :
    (display_memory_stats arr N i true g prev).1
        = memoryHeader ++ List.replicate i '\n'
          ++ sampleLine (arr i) (if i = 0 then 0 else double_sub (arr i).virt_used prev) g ++ ['\n']
          ++ List.replicate (N - 1 - i) '\n'
      ∧ sampleLine (arr i) (if i = 0 then 0 else double_sub (arr i).virt_used prev) g ≠ []
      ∧ '\n' ∉ sampleLine (arr i) (if i = 0 then 0 else double_sub (arr i).virt_used prev) g
      ∧ ∀ arr' : Nat → MemoryStats, arr' i = arr i →
          (display_memory_stats arr' N i true g prev).1
            = (display_memory_stats arr N i true g prev).1 := by
  refine ⟨sequential_text arr N i g prev hi, sampleLine_ne_nil _ _ _,
    newline_not_mem_sampleLine _ _ _, ?_⟩
  intro arr' h
  rw [sequential_text arr N i g prev hi, sequential_text arr' N i g prev hi, h]

/-- Witness for C8, three samples at index 1: a blank line, the line of sample 1, a blank
line. -/
theorem sequential_block_witness :
    (display_memory_stats (fun k => ⟨k, 8, k + 1, 10⟩) 3 1 true false 0).1
      = memoryHeader ++ "\n1.00 GB / 8.00 GB -- 2.00 GB / 10.00 GB\n\n".toList := by
  rw [(sequential_block (fun k => ⟨k, 8, k + 1, 10⟩) 3 1 false 0 (by decide)).1]
  decide!

/-- Witness for C7, three samples: index 0 gives one sample line and two blank lines, index 2
gives three sample lines and no padding. -/
theorem cumulative_block_witness :
    (display_memory_stats (fun k => ⟨k, 8, k + 1, 10⟩) 3 0 false false 0).1
        = memoryHeader ++ "0.00 GB / 8.00 GB -- 1.00 GB / 10.00 GB\n\n\n".toList
      ∧ (display_memory_stats (fun k => ⟨k, 8, k + 1, 10⟩) 3 2 false false 0).1
        = memoryHeader ++ ("0.00 GB / 8.00 GB -- 1.00 GB / 10.00 GB\n"
            ++ "1.00 GB / 8.00 GB -- 2.00 GB / 10.00 GB\n"
            ++ "2.00 GB / 8.00 GB -- 3.00 GB / 10.00 GB\n").toList := by
  constructor
  · rw [(cumulative_block (fun k => ⟨k, 8, k + 1, 10⟩) 3 0 false 0 (by decide)).1]
    decide!
  · rw [(cumulative_block (fun k => ⟨k, 8, k + 1, 10⟩) 3 2 false 0 (by decide)).1]
    decide!

/-- C9 as stated fails: for the `double` nearest to 0.03 the product `fabs(diff) * 100` is
rounded to `3.0` and `append_graphical_representation` draws three glyphs `#`, while
`floor(|diff| * 100)` is 2. -/
theorem delta_bar_glyphs_counterexample :
    (append_graphical_representation (double_of_decimal (3 / 100)) 0).1
        = "   |###* 0.03 (0.00)".toList
      ∧ ⌊|double_of_decimal (3 / 100)| * 100⌋ = 2
      ∧ (append_graphical_representation (double_of_decimal (3 / 100)) 0).1
        ≠ "   |".toList ++ specDeltaGlyphs (double_of_decimal (3 / 100)) ++ " ".toList
            ++ fmt2 (double_of_decimal (3 / 100)) ++ " (".toList ++ fmt2 0 ++ ")".toList := by
  decide!

/-- C9 (amended): for every `diff` for which the `double` product `fabs(diff) * 100` fits an
`int`, `append_graphical_representation` prints, after `   |`, the bar `deltaGlyphs diff`:
`min(bars, 100)` glyphs `#` and a `*` when `diff` is at least the `double` 0.01, as many glyphs
`@` and a `*` when `diff` is at most the `double` -0.01, the single glyph `o` otherwise, where
`bars` is the integer part of the `double` product `fabs(diff) * 100`, which is
`floor(|diff| * 100)` or one more; the `double` 0.05 gives `#####*`, the `double` -0.003 gives
`o` and 0 gives `o`. -/
theorem delta_bar_glyphs (diff currentVirtUsed : ℚ) (hint : double_mul |diff| 100 < 2 ^ 31) :
    (append_graphical_representation diff currentVirtUsed).1
        = "   |".toList ++ deltaGlyphs diff ++ " ".toList ++ fmt2 diff ++ " (".toList
            ++ fmt2 currentVirtUsed ++ ")".toList
      ∧ ⌊|diff| * 100⌋ ≤ ⌊double_mul |diff| 100⌋
      ∧ ⌊double_mul |diff| 100⌋ ≤ ⌊|diff| * 100⌋ + 1
      ∧ (append_graphical_representation (double_of_decimal (5 / 100)) currentVirtUsed).1
        = "   |#####* 0.05 (".toList ++ fmt2 currentVirtUsed ++ ")".toList
      ∧ (append_graphical_representation (double_of_decimal (-3 / 1000)) currentVirtUsed).1
        = "   |o -0.00 (".toList ++ fmt2 currentVirtUsed ++ ")".toList
      ∧ (append_graphical_representation 0 currentVirtUsed).1
        = "   |o 0.00 (".toList ++ fmt2 currentVirtUsed ++ ")".toList := by
  have h1 : deltaGlyphs (double_of_decimal (5 / 100)) = "#####*".toList := by decide!
  have h2 : deltaGlyphs (double_of_decimal (-3 / 1000)) = "o".toList := by decide!
  have h3 : deltaGlyphs 0 = "o".toList := by decide!
  have f1 : fmt2 (double_of_decimal (5 / 100)) = "0.05".toList := by decide!
  have f2 : fmt2 (double_of_decimal (-3 / 1000)) = "-0.00".toList := by decide!
  have f3 : fmt2 0 = "0.00".toList := by decide!
  have hq0 : 0 ≤ |diff| * 100 := mul_nonneg (abs_nonneg diff) (by norm_num)
  have hq53 : |(|diff| * 100)| < 2 ^ 53 := by
    rw [abs_of_nonneg hq0]
    by_contra hc
    push_neg at hc
    have h53 : fl ((2 : ℚ) ^ 53) ≤ fl (|diff| * 100) := fl_mono_nonneg (by norm_num) hc
    have e53 : fl ((2 : ℚ) ^ 53) = 2 ^ 53 := by decide!
    rw [e53] at h53
    unfold double_mul at hint
    have : (2 : ℚ) ^ 31 < 2 ^ 53 := by norm_num
    linarith
  refine ⟨append_graphical_text diff currentVirtUsed, ?_, ?_, ?_, ?_, ?_⟩
  · exact Int.le_floor.2 (le_fl_int _ _ hq53 (Int.floor_le _))
  · apply Int.floor_le_iff.2
    have := fl_le_int (|diff| * 100) (⌊|diff| * 100⌋ + 1) hq53
      (by push_cast; exact (Int.lt_floor_add_one _).le)
    unfold double_mul
    push_cast at this ⊢
    linarith
  · rw [append_graphical_text, h1, f1]; rfl
  · rw [append_graphical_text, h2, f2]; rfl
  · rw [append_graphical_text, h3, f3]; rfl

/-- Witness for C9: the `double` 0.05 with a current value of 1. -/
theorem delta_bar_glyphs_witness :
    double_mul |double_of_decimal (5 / 100)| 100 < 2 ^ 31
      ∧ (append_graphical_representation (double_of_decimal (5 / 100)) 1).1
        = "   |#####* 0.05 (1.00)".toList := by
  refine ⟨by decide!, ?_⟩
  rw [(delta_bar_glyphs (double_of_decimal (5 / 100)) 1 (by decide!)).1]
  decide!

/-- C10 as stated fails: with one sample of 1.00 GB virtual memory and the baseline at 0, the
first line shows the delta `0.00` and the glyph `o`, not the delta `virtUsed[0] - baseline`
of the specification. -/
theorem cumulative_first_delta_counterexample :
    (display_memory_stats (fun _ => ⟨1, 8, 1, 10⟩) 1 0 false true 0).1
        ≠ memoryHeader ++ sampleLine ⟨1, 8, 1, 10⟩
            (specCumulativeDiff (fun _ => ⟨1, 8, 1, 10⟩) 0 0) true ++ ['\n']
      ∧ (display_memory_stats (fun _ => ⟨1, 8, 1, 10⟩) 1 0 false true 0).1
        = memoryHeader ++ "1.00 GB / 8.00 GB -- 1.00 GB / 10.00 GB   |o 0.00 (1.00)\n".toList := by
  decide!

/-- C10 (amended): in cumulative mode with graphics enabled, for every history, every printed
line `k` shows the delta `virtUsed[k] - virtUsed[k-1]` (the difference of the two `double`
values) when `k > 0` and the delta `0` when `k = 0`, whatever the baseline. -/
theorem cumulative_delta (arr : Nat → MemoryStats) (N i : Nat) (prev : ℚ) :
    (display_memory_stats arr N i false true prev).1
      = memoryHeader
        ++ ((List.range (i + 1)).map (fun k =>
            memoryLine (arr k)
              ++ (append_graphical_representation
                  (if k = 0 then 0
                    else double_sub (arr k).virt_used (arr (k - 1)).virt_used)
                  (arr k).virt_used).1
              ++ ['\n'])).flatten
        ++ List.replicate (N - (i + 1)) '\n' := by
  rw [cumulative_text]
  rfl

/-! ## Theorems: one iteration of the sampling loop -/

/-- C13: for every combination of `system_flag` and `user_flag`, the collectors one iteration
of the loop of `main` launches are, in order: memory and CPU when only the system flag is set,
users alone when only the user flag is set, and memory, users, CPU when both flags or neither
are set. -/
theorem mainIteration_collectors (system_flag user_flag : Bool) :
    (mainIteration system_flag user_flag).filter Step.isCollector
      = if system_flag && !user_flag then
          [Step.launchMemoryStatsProcess, Step.launchCpuStatsProcess]
        else if user_flag && !system_flag then [Step.launchUserStatsProcess]
        else [Step.launchMemoryStatsProcess, Step.launchUserStatsProcess,
          Step.launchCpuStatsProcess] := by
  cases system_flag <;> cases user_flag <;> rfl

/-! ## Lemmas on the CPU graphics -/

theorem toDigits_length_le_of_lt (n e : Nat) (he : 0 < e) (h : n < 10 ^ e) :
    (Nat.toDigits 10 n).length ≤ e :=
  Nat.toDigitsCore_length 10 (by decide) (n + 1) n e h he

/-- Length of the `%.2f` text of a value between 0 and 100. -/
theorem fmt2_length_le (x : ℚ) (h0 : 0 ≤ x) (h100 : x ≤ 100) : (fmt2 x).length ≤ 6 := by
  have hn : roundHalfEven (|x| * 100) ≤ 10000 := by
    apply roundHalfEven_le
    rw [abs_of_nonneg h0]
    push_cast
    linarith
  have hn0 : 0 ≤ roundHalfEven (|x| * 100) :=
    roundHalfEven_nonneg _ (mul_nonneg (abs_nonneg x) (by norm_num))
  have hlt : (roundHalfEven (|x| * 100)).toNat / 100 < 10 ^ 3 := by omega
  have hlen := toDigits_length_le_of_lt _ 3 (by decide) hlt
  have hneg : ¬ x < 0 := not_lt.2 h0
  simp only [fmt2, hneg, if_false, List.nil_append, List.length_append, List.length_cons,
    List.length_nil]
  omega

theorem bar_loop_eq (n : Nat) (row : List Char) :
    (List.range n).foldl (fun row _ => row ++ ['|']) row = row ++ List.replicate n '|' := by
  induction n with
  | zero => simp
  | succ n ih =>
    rw [List.range_succ, List.foldl_append, ih]
    simp [List.replicate_succ']

/-- The graphic text is the pad, the glyphs and the text of `usage_str`. -/
theorem cpuGraphicText_eq (cpu_usage : ℚ) :
    cpuGraphicText cpu_usage
      = List.replicate 9 ' '
          ++ List.replicate (double_to_int (double_add cpu_usage 3)).toNat '|'
          ++ (" ".toList ++ fmt2 cpu_usage ++ " ".toList).take 31 := by
  simp only [cpuGraphicText, bar_loop_eq]
  rfl

theorem bar_not_mem_fmt2 (x : ℚ) : '|' ∉ fmt2 x := by
  intro h
  rcases fmt2_chars x _ h with h | h | h <;> revert h <;> decide

/-- The number of glyphs in the graphic text is the integer part of the `double` sum
`usage + 3`. -/
theorem cpuGlyphCount_eq (cpu_usage : ℚ) :
    cpuGlyphCount (cpuGraphicText cpu_usage)
      = (double_to_int (double_add cpu_usage 3)).toNat := by
  have h1 : (List.replicate 9 ' ').count '|' = 0 := by decide
  have h2 : ((" ".toList ++ fmt2 cpu_usage ++ " ".toList).take 31).count '|' = 0 := by
    apply List.count_eq_zero.2
    intro h
    have h' := List.mem_of_mem_take h
    simp only [List.mem_append] at h'
    rcases h' with (h' | h') | h'
    · revert h'; decide
    · exact bar_not_mem_fmt2 _ h'
    · revert h'; decide
  simp only [cpuGlyphCount, cpuGraphicText_eq, List.count_append, h1, h2, List.count_replicate]
  simp

theorem double_to_int_of_nonneg (x : ℚ) (h : 0 ≤ x) : double_to_int x = ⌊x⌋ := by
  simp [double_to_int, h]

/-- The `double` sum `usage + 3` for a usage between 0 and 100: between 3 and 103, with
the integer part of the exact sum or one more. -/
theorem double_add_three (cpu_usage : ℚ) (h0 : 0 ≤ cpu_usage) (h100 : cpu_usage ≤ 100) :
    3 ≤ double_add cpu_usage 3 ∧ double_add cpu_usage 3 ≤ 103
      ∧ ⌊cpu_usage + 3⌋ ≤ ⌊double_add cpu_usage 3⌋
      ∧ ⌊double_add cpu_usage 3⌋ ≤ ⌊cpu_usage + 3⌋ + 1 := by
  have hq : |cpu_usage + 3| < 2 ^ 53 := by
    rw [abs_of_nonneg (by linarith)]
    exact lt_of_le_of_lt (by linarith : cpu_usage + 3 ≤ 103) (by norm_num)
  have a1 := le_fl_int (cpu_usage + 3) 3 hq (by push_cast; linarith)
  have a2 := fl_le_int (cpu_usage + 3) 103 hq (by push_cast; linarith)
  have a3 := le_fl_int (cpu_usage + 3) ⌊cpu_usage + 3⌋ hq (Int.floor_le _)
  have a4 := fl_le_int (cpu_usage + 3) (⌊cpu_usage + 3⌋ + 1) hq
    (by push_cast; exact (Int.lt_floor_add_one _).le)
  unfold double_add
  refine ⟨by exact_mod_cast a1, by exact_mod_cast a2, Int.le_floor.2 a3, ?_⟩
  apply Int.floor_le_iff.2
  push_cast at a4 ⊢
  linarith

/-- The graphic text for a usage between 0 and 100. -/
theorem cpuGraphicText_of_range (cpu_usage : ℚ) (h0 : 0 ≤ cpu_usage) (h100 : cpu_usage ≤ 100) :
    cpuGraphicText cpu_usage
        = List.replicate 9 ' ' ++ List.replicate ⌊double_add cpu_usage 3⌋.toNat '|'
            ++ (" ".toList ++ fmt2 cpu_usage ++ " ".toList)
      ∧ ⌊double_add cpu_usage 3⌋.toNat ≤ 103
      ∧ (cpuGraphicText cpu_usage).length ≤ 120 := by
  have hlen := fmt2_length_le cpu_usage h0 h100
  obtain ⟨b1, b2, -, -⟩ := double_add_three cpu_usage h0 h100
  have hfl : ⌊double_add cpu_usage 3⌋ ≤ 103 :=
    Int.floor_le_iff.2 (by push_cast; linarith)
  have htake : (" ".toList ++ fmt2 cpu_usage ++ " ".toList).take 31
      = " ".toList ++ fmt2 cpu_usage ++ " ".toList := by
    apply List.take_of_length_le
    have h1 : (" ".toList).length = 1 := by decide
    simp only [List.length_append, h1]
    omega
  have htext : cpuGraphicText cpu_usage
      = List.replicate 9 ' ' ++ List.replicate ⌊double_add cpu_usage 3⌋.toNat '|'
          ++ (" ".toList ++ fmt2 cpu_usage ++ " ".toList) := by
    rw [cpuGraphicText_eq, htake, double_to_int_of_nonneg _ (by linarith)]
  refine ⟨htext, by omega, ?_⟩
  rw [htext]
  have h1 : (" ".toList).length = 1 := by decide
  simp only [List.length_append, List.length_replicate, h1]
  omega

/-! ## Theorems: CPU graphics -/

/-- C15 as stated fails: for the usage `1 - 2 ^ (-53)`, a `double` between 0 and 100, the sum
`usage + 3` is rounded to `4.0` and `update_cpu_graphics` puts four glyphs in the row, while
`floor(usage + 3)` is 3. -/
theorem update_cpu_graphics_row_counterexample :
    (0 : ℚ) ≤ 1 - 1 / 2 ^ 53 ∧ (1 : ℚ) - 1 / 2 ^ 53 ≤ 100
      ∧ fl (1 - 1 / 2 ^ 53) = 1 - 1 / 2 ^ 53
      ∧ ⌊(1 : ℚ) - 1 / 2 ^ 53 + 3⌋ = 3
      ∧ cpuGraphicText (1 - 1 / 2 ^ 53) = "         |||| 1.00 ".toList
      ∧ cpuGlyphCount (cpuGraphicText (1 - 1 / 2 ^ 53)) = 4 := by
  decide!

/-- C15 (amended): for every usage between 0 and 100 and every sample index,
`update_cpu_graphics` returns with the row at that index replaced by nine spaces, one glyph `|`
per unit of the integer part of the `double` sum `usage + 3`, a space, the usage with two
decimals, a space; the number of glyphs is `floor(usage + 3)` or one more; every other row is
unchanged. -/
theorem update_cpu_graphics_row (cpu_usage : ℚ) (sample_index samples : Nat)
    (cpu_graphics_arr : Nat → List Char) (h0 : 0 ≤ cpu_usage) (h100 : cpu_usage ≤ 100) :
    ∃ arr', update_cpu_graphics cpu_usage sample_index cpu_graphics_arr samples = some arr'
      ∧ arr' sample_index
          = List.replicate 9 ' ' ++ List.replicate ⌊double_add cpu_usage 3⌋.toNat '|'
              ++ [' '] ++ fmt2 cpu_usage ++ [' ']
      ∧ ⌊cpu_usage + 3⌋ ≤ ⌊double_add cpu_usage 3⌋
      ∧ ⌊double_add cpu_usage 3⌋ ≤ ⌊cpu_usage + 3⌋ + 1
      ∧ ∀ j, j ≠ sample_index → arr' j = cpu_graphics_arr j := by
  obtain ⟨htext, -, hlen⟩ := cpuGraphicText_of_range cpu_usage h0 h100
  obtain ⟨-, -, b3, b4⟩ := double_add_three cpu_usage h0 h100
  have hfit : (cpuGraphicText cpu_usage).length < CPU_GRAPHIC_SLOT :=
    lt_of_le_of_lt hlen (by decide)
  have hupd : update_cpu_graphics cpu_usage sample_index cpu_graphics_arr samples
      = some (Function.update cpu_graphics_arr sample_index (cpuGraphicText cpu_usage)) := by
    simp only [update_cpu_graphics, hfit, if_true]
  refine ⟨_, hupd, ?_, b3, b4, ?_⟩
  · rw [Function.update_same, htext]
    simp
  · intro j hj
    exact Function.update_noteq hj _ _

/-- Witness for C15: a usage of 12.5 percent gives fifteen glyphs and the text ` 12.50 `. -/
theorem update_cpu_graphics_row_witness :
    ∃ arr', update_cpu_graphics (25 / 2) 1 (fun _ => []) 3 = some arr'
      ∧ arr' 1 = "         ||||||||||||||| 12.50 ".toList
      ∧ ∀ j, j ≠ 1 → arr' j = [] := by
  obtain ⟨arr', h, h1, -, -, h2⟩ := update_cpu_graphics_row (25 / 2) 1 3 (fun _ => [])
    (by norm_num) (by norm_num)
  refine ⟨arr', h, ?_, h2⟩
  rw [h1]
  decide!

/-- C16 fails on the code: the counters `idle 2000 → 0`, `total 0 → 100` give a usage of 2100,
for which the graphic text holds 2103 glyphs and no longer fits the row; there is no cap, the
glyph count exceeds every width for a usage large enough. -/
theorem cpu_glyphs_uncapped :
    (calculate_and_print_cpu_usage 2000 0 0 100).2 = 2100
      ∧ cpuGlyphCount (cpuGraphicText 2100) = 2103
      ∧ update_cpu_graphics 2100 0 (fun _ => []) 1 = none
      ∧ ∀ W : Nat, ∃ cpu_usage : ℚ, W < cpuGlyphCount (cpuGraphicText cpu_usage) := by
  have hcount : cpuGlyphCount (cpuGraphicText 2100) = 2103 := by
    rw [cpuGlyphCount_eq]; decide!
  refine ⟨by decide!, hcount, ?_, ?_⟩
  · have hlen : ¬ (cpuGraphicText 2100).length < CPU_GRAPHIC_SLOT := by
      have hle : cpuGlyphCount (cpuGraphicText 2100) ≤ (cpuGraphicText 2100).length :=
        List.count_le_length _ _
      rw [hcount] at hle
      simp only [CPU_GRAPHIC_SLOT]
      omega
    simp only [update_cpu_graphics, hlen, if_false]
  · intro W
    refine ⟨((2 ^ (W + 2) : Nat) : ℚ), ?_⟩
    have hP : (4 : ℚ) ≤ ((2 ^ (W + 2) : Nat) : ℚ) := by
      have : 4 ≤ 2 ^ (W + 2) := by
        rw [pow_add]
        have := Nat.one_le_two_pow (n := W)
        omega
      exact_mod_cast this
    have hz : (2 : ℚ) ^ (((W + 2 : Nat) : ℤ)) = ((2 ^ (W + 2) : Nat) : ℚ) := by
      rw [zpow_natCast]; push_cast; rfl
    have hq0 : (0 : ℚ) ≤ ((2 ^ (W + 2) : Nat) : ℚ) + 3 := by linarith
    have key := le_fl_of (((2 ^ (W + 2) : Nat) : ℚ) + 3) 1 ((W + 2 : Nat) : ℤ) (by omega)
      (by
        rw [abs_of_nonneg hq0, zpow_add₀ (by norm_num : (2 : ℚ) ≠ 0), hz]
        have : (1 : ℚ) ≤ 2 ^ (53 : ℤ) - 1 := by norm_num
        nlinarith)
      (by rw [hz, Int.cast_one, one_mul]; linarith)
    rw [hz, Int.cast_one, one_mul] at key
    have hfl0 : 0 ≤ double_add ((2 ^ (W + 2) : Nat) : ℚ) 3 := fl_nonneg _ hq0
    rw [cpuGlyphCount_eq, double_to_int_of_nonneg _ hfl0]
    have hfloor : ((2 ^ (W + 2) : Nat) : ℤ) ≤ ⌊double_add ((2 ^ (W + 2) : Nat) : ℚ) 3⌋ :=
      Int.le_floor.2 (by
        unfold double_add
        exact_mod_cast key)
    have hW : W < 2 ^ (W + 2) :=
      lt_of_lt_of_le (Nat.lt_two_pow W) (Nat.pow_le_pow_right (by norm_num) (by omega))
    omega

/-- C17 as stated fails: at index 0 of a three-sample run `print_cpu_graphics` prints the single
row of sample 0 and no blank line, not the three lines of the padded table. -/
theorem cpu_table_padding_counterexample :
    print_cpu_graphics 0 false (fun _ => ['|']) 3 = "|\n".toList
      ∧ specCpuTable (fun _ => ['|']) 3 0 = "|\n\n\n".toList
      ∧ print_cpu_graphics 0 false (fun _ => ['|']) 3 ≠ specCpuTable (fun _ => ['|']) 3 0 := by
  decide

theorem cpu_loop_eq (cpu_graphics_arr : Nat → List Char) (l : List Nat) : ∀ out : List Char,
    l.foldl (fun out i => out ++ cpu_graphics_arr i ++ ['\n']) out
      = out ++ (l.map (fun k => cpu_graphics_arr k ++ ['\n'])).flatten := by
  induction l with
  | nil => intro out; simp
  | cons a l ih =>
    intro out
    simp only [List.foldl_cons, List.map_cons, List.flatten_cons]
    rw [ih]
    simp

/-- C17 (amended): in cumulative mode `print_cpu_graphics` prints the CPU graphic strings of
samples `0..i` in index order, one per line, and nothing after them: the table has `i + 1`
lines, whatever the sample count. -/
theorem cpu_table_cumulative (cpu_graphics_arr : Nat → List Char) (samples i : Nat) :
    print_cpu_graphics i false cpu_graphics_arr samples
        = ((List.range (i + 1)).map (fun k => cpu_graphics_arr k ++ ['\n'])).flatten
      ∧ ((∀ k, '\n' ∉ cpu_graphics_arr k) →
          (print_cpu_graphics i false cpu_graphics_arr samples).count '\n' = i + 1) := by
  have htext : print_cpu_graphics i false cpu_graphics_arr samples
      = ((List.range (i + 1)).map (fun k => cpu_graphics_arr k ++ ['\n'])).flatten := by
    simp only [print_cpu_graphics, Bool.false_eq_true, if_false, cpu_loop_eq, List.nil_append]
  refine ⟨htext, ?_⟩
  intro hnl
  have hmap : (List.range (i + 1)).map (fun k => cpu_graphics_arr k ++ ['\n'])
      = ((List.range (i + 1)).map cpu_graphics_arr).map (fun l => l ++ ['\n']) := by
    rw [List.map_map]; rfl
  rw [htext, hmap, count_newline_lines]
  · simp
  · intro l hl
    obtain ⟨k, -, rfl⟩ := List.mem_map.1 hl
    exact hnl k

/-- Witness for C17: at index 1 of a three-sample run two rows are printed. -/
theorem cpu_table_cumulative_witness :
    print_cpu_graphics 1 false (fun k => List.replicate (k + 1) '|') 3 = "|\n||\n".toList
      ∧ (print_cpu_graphics 1 false (fun k => List.replicate (k + 1) '|') 3).count '\n' = 2 := by
  have h := cpu_table_cumulative (fun k => List.replicate (k + 1) '|') 3 1
  refine ⟨by rw [h.1]; decide, h.2 ?_⟩
  intro k hk
  have := (List.mem_replicate.1 hk).2
  revert this; decide

/-- C18: for every usage between 0 and 100 the graphic text is at most `9 + 103 + 8 = 120`
characters long, which is below the 1024 bytes of a row, so `update_cpu_graphics` returns
without writing past the row. -/
theorem cpu_graphic_fits_slot (cpu_usage : ℚ) (sample_index samples : Nat)
    (cpu_graphics_arr : Nat → List Char) (h0 : 0 ≤ cpu_usage) (h100 : cpu_usage ≤ 100) :
    (cpuGraphicText cpu_usage).length ≤ 9 + 103 + 8
      ∧ 9 + 103 + 8 < CPU_GRAPHIC_SLOT
      ∧ ∃ arr', update_cpu_graphics cpu_usage sample_index cpu_graphics_arr samples = some arr'
          ∧ (arr' sample_index).length ≤ 120 := by
  obtain ⟨-, -, hlen⟩ := cpuGraphicText_of_range cpu_usage h0 h100
  have hfit : (cpuGraphicText cpu_usage).length < CPU_GRAPHIC_SLOT :=
    lt_of_le_of_lt hlen (by decide)
  have hupd : update_cpu_graphics cpu_usage sample_index cpu_graphics_arr samples
      = some (Function.update cpu_graphics_arr sample_index (cpuGraphicText cpu_usage)) := by
    simp only [update_cpu_graphics, hfit, if_true]
  refine ⟨hlen, by decide, _, hupd, ?_⟩
  rw [Function.update_same]
  exact hlen

/-- Witness for C18: a usage of 100 percent. -/
theorem cpu_graphic_fits_slot_witness :
    (cpuGraphicText 100).length ≤ 9 + 103 + 8
      ∧ 9 + 103 + 8 < CPU_GRAPHIC_SLOT
      ∧ ∃ arr', update_cpu_graphics 100 0 (fun _ => []) 1 = some arr'
          ∧ (arr' 0).length ≤ 120 :=
  cpu_graphic_fits_slot 100 0 1 (fun _ => []) (by norm_num) (by norm_num)

/-- The bound of 120 characters is reached at a usage of 100 percent. -/
theorem cpu_graphic_length_max : (cpuGraphicText 100).length = 120 := by decide!

/-! ## Theorems: baseline of the memory graphic -/

theorem display_snd_eq (arr : Nat → MemoryStats) (N k : Nat) (g : Bool)
    (st1 : List Char × ℚ) (h : st1.2 = (arr k).virt_used) :
    (if g ∧ (k : ℤ) < (N : ℤ) - 1 then (st1.1, (arr k).virt_used) else st1).2
      = (arr k).virt_used := by
  split_ifs
  · rfl
  · exact h

/-- After a render of index `k` with graphics on, `*prev_virt` is `virtUsed[k]`. -/
theorem display_memory_stats_snd (arr : Nat → MemoryStats) (N k : Nat) (s : Bool) (p : ℚ)
    (hk : k < N) : (display_memory_stats arr N k s true p).2 = (arr k).virt_used := by
  unfold display_memory_stats
  apply display_snd_eq
  cases s with
  | true =>
    simp only [if_true]
    rw [range_split N k hk, List.foldl_append, List.foldl_cons,
      sequential_loop_others arr k true (List.range k) (fun j hj => by
        have := List.mem_range.1 hj; omega)]
    simp only [if_true]
    rw [sequential_loop_others arr k true (List.range' (k + 1) (N - 1 - k)) (fun j hj => by
        have := (List.mem_range'_1.1 hj).1; omega)]
    simp only [printSample_snd, if_true]
  | false =>
    simp only [Bool.false_eq_true, if_false]
    rw [padding_loop, List.range_succ, List.foldl_append]
    simp only [List.foldl_cons, List.foldl_nil, printSample_snd, if_true]

theorem main_prev_virt_succ (arr : Nat → MemoryStats) (N i : Nat) (s : Bool) (hi : i < N) :
    main_prev_virt arr N s true (i + 1) = (arr i).virt_used := by
  simp only [main_prev_virt]
  exact display_memory_stats_snd arr N i s _ hi

/-- The delta computed in sequential mode at iteration `i` of a run. -/
theorem sequential_run_delta (arr : Nat → MemoryStats) (N i : Nat) (hi : i < N) :
    (if i = 0 then (0 : ℚ)
        else double_sub (arr i).virt_used (main_prev_virt arr N true true i))
      = cumulativeDiff arr i := by
  unfold cumulativeDiff
  cases i with
  | zero => rfl
  | succ i =>
    rw [main_prev_virt_succ arr N i true (by omega)]
    simp

/-- C14: with graphics enabled, a render of index `k < N` leaves `virtUsed[k]` in the baseline,
in either mode; so in a run from the baseline 0 the delta computed in sequential mode at
iteration `i` is the delta of line `i` of the cumulative table, and the sequential line of
sample `i` is line `i` of the cumulative block. -/
theorem sequential_delta_matches_cumulative (arr : Nat → MemoryStats) (N i : Nat)
    (hi : i < N) :
    (∀ k, k < N → ∀ (s : Bool) (p : ℚ),
        (display_memory_stats arr N k s true p).2 = (arr k).virt_used)
      ∧ (if i = 0 then (0 : ℚ)
        else double_sub (arr i).virt_used (main_prev_virt arr N true true i))
          = (if i = 0 then (0 : ℚ)
            else double_sub (arr i).virt_used (arr (i - 1)).virt_used)
      ∧ (display_memory_stats arr N i true true (main_prev_virt arr N true true i)).1
          = memoryHeader ++ List.replicate i '\n'
            ++ sampleLine (arr i) (cumulativeDiff arr i) true ++ ['\n']
            ++ List.replicate (N - 1 - i) '\n'
      ∧ (display_memory_stats arr N i false true (main_prev_virt arr N false true i)).1
          = memoryHeader
            ++ ((List.range (i + 1)).map
                (fun k => sampleLine (arr k) (cumulativeDiff arr k) true ++ ['\n'])).flatten
            ++ List.replicate (N - 1 - i) '\n' := by
  have e : N - (i + 1) = N - 1 - i := by omega
  refine ⟨fun k hk s p => display_memory_stats_snd arr N k s p hk,
    sequential_run_delta arr N i hi, ?_, by rw [cumulative_text, e]⟩
  rw [sequential_text arr N i true _ hi, sequential_run_delta arr N i hi]

/-- Witness for C14: the third iteration of a three-sample sequential run whose virtual
memory figures are the `double` values 1.00, 1.01 and 1.02. -/
theorem sequential_delta_matches_cumulative_witness :
    (display_memory_stats (fun k => ⟨k, 8, double_of_decimal (k / 100 + 1), 10⟩) 3 2 true true
        (main_prev_virt (fun k => ⟨k, 8, double_of_decimal (k / 100 + 1), 10⟩) 3 true true 2)).1
      = memoryHeader
        ++ "\n\n2.00 GB / 8.00 GB -- 1.02 GB / 10.00 GB   |#* 0.01 (1.02)\n".toList := by
  rw [(sequential_delta_matches_cumulative (fun k => ⟨k, 8, double_of_decimal (k / 100 + 1), 10⟩) 3 2
    (by decide)).2.2.1]
  decide!

/-! ## Lemmas on the memory channel -/

theorem noLeadingDigit_cons {c : Char} (t : List Char) (h : c.isDigit = false) :
    NoLeadingDigit (c :: t) := by
  intro d hd
  simp only [List.head?_cons, Option.some.injEq] at hd
  rw [← hd]; exact h

theorem noLeadingDigit_nil : NoLeadingDigit [] := by
  intro d hd; simp at hd

theorem digitsValue_pair (a b : Nat) (ha : a < 10) (hb : b < 10) :
    digitsValue [Nat.digitChar a, Nat.digitChar b] = a * 10 + b := by
  have h1 := digitChar_value a ha
  have h2 := digitChar_value b hb
  simp only [digitsValue, List.foldl_cons, List.foldl_nil, Nat.zero_mul, Nat.zero_add, h1, h2]

/-- Reading back a number written by `%.2f`, in front of text that does not continue it. -/
theorem scan_lf_fmt2 (x : ℚ) (rest : List Char) (hrest : NoLeadingDigit rest) :
    scan_lf (fmt2 x ++ rest) = some (fl (round2 x), rest) := by
  have hn0 : 0 ≤ roundHalfEven (|x| * 100) :=
    roundHalfEven_nonneg _ (mul_nonneg (abs_nonneg x) (by norm_num))
  obtain ⟨n, hn⟩ : ∃ n : Nat, roundHalfEven (|x| * 100) = (n : ℤ) :=
    ⟨(roundHalfEven (|x| * 100)).toNat, (Int.toNat_of_nonneg hn0).symm⟩
  have hip := toDigits_ne_nil (n / 100)
  have hipd := isDigit_of_mem_toDigits (n / 100)
  have hd1 : n % 100 / 10 < 10 := by omega
  have hd2 : n % 10 < 10 := by omega
  have hfd : ∀ c ∈ [Nat.digitChar (n % 100 / 10), Nat.digitChar (n % 10)], c.isDigit = true := by
    intro c hc
    simp only [List.mem_cons, List.mem_singleton, List.not_mem_nil, or_false] at hc
    rcases hc with rfl | rfl
    · exact digitChar_isDigit _ hd1
    · exact digitChar_isDigit _ hd2
  -- the text after the sign
  have hbody : ∀ neg : Bool,
      (let ip := (Nat.toDigits 10 (n / 100) ++ '.' :: Nat.digitChar (n % 100 / 10)
            :: Nat.digitChar (n % 10) :: rest).takeWhile Char.isDigit
       let r1 := (Nat.toDigits 10 (n / 100) ++ '.' :: Nat.digitChar (n % 100 / 10)
            :: Nat.digitChar (n % 10) :: rest).dropWhile Char.isDigit
       let frac : List Char × List Char :=
         match r1 with
         | [] => ([], [])
         | c :: t =>
           if c = '.' then (t.takeWhile Char.isDigit, t.dropWhile Char.isDigit) else ([], c :: t)
       if ip = [] ∧ frac.1 = [] then none
       else
         let v : ℚ :=
           double_of_decimal
             ((digitsValue ip : ℚ) + (digitsValue frac.1 : ℚ) / 10 ^ frac.1.length)
         some (if neg then -v else v, frac.2))
      = some (if neg then -fl ((n : ℚ) / 100) else fl ((n : ℚ) / 100), rest) := by
    intro neg
    have hdot : NoLeadingDigit ('.' :: Nat.digitChar (n % 100 / 10)
        :: Nat.digitChar (n % 10) :: rest) := noLeadingDigit_cons _ (by decide)
    have ht : (Nat.toDigits 10 (n / 100) ++ '.' :: Nat.digitChar (n % 100 / 10)
          :: Nat.digitChar (n % 10) :: rest).takeWhile Char.isDigit
        = Nat.toDigits 10 (n / 100) := by
      rw [takeWhile_append_of_all _ _ _ hipd, takeWhile_of_noLeadingDigit hdot, List.append_nil]
    have hdr : (Nat.toDigits 10 (n / 100) ++ '.' :: Nat.digitChar (n % 100 / 10)
          :: Nat.digitChar (n % 10) :: rest).dropWhile Char.isDigit
        = '.' :: Nat.digitChar (n % 100 / 10) :: Nat.digitChar (n % 10) :: rest := by
      rw [dropWhile_append_of_all _ _ _ hipd, dropWhile_of_noLeadingDigit hdot]
    have hft : (Nat.digitChar (n % 100 / 10) :: Nat.digitChar (n % 10) :: rest).takeWhile
          Char.isDigit = [Nat.digitChar (n % 100 / 10), Nat.digitChar (n % 10)] := by
      have := takeWhile_append_of_all Char.isDigit
        [Nat.digitChar (n % 100 / 10), Nat.digitChar (n % 10)] rest hfd
      rw [takeWhile_of_noLeadingDigit hrest] at this
      simpa using this
    have hfdr : (Nat.digitChar (n % 100 / 10) :: Nat.digitChar (n % 10) :: rest).dropWhile
          Char.isDigit = rest := by
      have := dropWhile_append_of_all Char.isDigit
        [Nat.digitChar (n % 100 / 10), Nat.digitChar (n % 10)] rest hfd
      rw [dropWhile_of_noLeadingDigit hrest] at this
      simpa using this
    simp only [ht, hdr, if_true, hft, hfdr, hip, false_and, if_false, digitsValue_toDigits,
      digitsValue_pair _ _ hd1 hd2, List.length_cons, List.length_nil]
    have hval : ((n / 100 : Nat) : ℚ) + ((n % 100 / 10 * 10 + n % 10 : Nat) : ℚ) / 10 ^ (0 + 1 + 1)
        = (n : ℚ) / 100 := by
      have h1 : n % 100 / 10 * 10 + n % 10 = n % 100 := by omega
      have h2 : (n : ℚ) = ((n / 100 : Nat) : ℚ) * 100 + ((n % 100 : Nat) : ℚ) := by
        have : n = n / 100 * 100 + n % 100 := by omega
        exact_mod_cast this
      rw [h1, h2]
      norm_num
      ring
    rw [hval]
    rfl
  by_cases hneg : x < 0
  · have hfmt : fmt2 x ++ rest = '-' :: (Nat.toDigits 10 (n / 100) ++ '.'
        :: Nat.digitChar (n % 100 / 10) :: Nat.digitChar (n % 10) :: rest) := by
      simp [fmt2, hneg, hn]
    have hr : fl (round2 x) = -fl ((n : ℚ) / 100) := by
      rw [← fl_neg]
      congr 1
      simp only [round2, hneg, if_true, hn, Int.cast_natCast]; ring
    rw [hfmt, hr]
    have := hbody true
    simp only [if_true] at this
    simp only [scan_lf, List.dropWhile_cons, show isspace '-' = false from by decide,
      stripSign, if_true]
    exact this
  · obtain ⟨d, ds, hds⟩ := List.exists_cons_of_ne_nil hip
    have hdd : d.isDigit = true := hipd d (by rw [hds]; exact List.mem_cons_self _ _)
    have hsign := not_sign_of_isDigit hdd
    have hfmt : fmt2 x ++ rest = Nat.toDigits 10 (n / 100) ++ '.'
        :: Nat.digitChar (n % 100 / 10) :: Nat.digitChar (n % 10) :: rest := by
      simp [fmt2, hneg, hn]
    have hr : fl (round2 x) = fl ((n : ℚ) / 100) := by
      congr 1
      simp only [round2, hneg, if_false, hn, Int.cast_natCast]; ring
    rw [hfmt, hr]
    have := hbody false
    simp only [Bool.false_eq_true, if_false] at this
    have hdrop : (Nat.toDigits 10 (n / 100) ++ '.' :: Nat.digitChar (n % 100 / 10)
          :: Nat.digitChar (n % 10) :: rest).dropWhile isspace
        = Nat.toDigits 10 (n / 100) ++ '.' :: Nat.digitChar (n % 100 / 10)
          :: Nat.digitChar (n % 10) :: rest := by
      rw [hds]
      simp [List.dropWhile_cons, isspace_of_isDigit hdd]
    have hstrip : stripSign (Nat.toDigits 10 (n / 100) ++ '.' :: Nat.digitChar (n % 100 / 10)
          :: Nat.digitChar (n % 10) :: rest)
        = (false, Nat.toDigits 10 (n / 100) ++ '.' :: Nat.digitChar (n % 100 / 10)
          :: Nat.digitChar (n % 10) :: rest) :=
      stripSign_digits _ _ hip hipd
    simp only [scan_lf, hdrop, hstrip, Bool.false_eq_true, if_false]
    exact this

theorem fmt2_length_le_of_abs (x : ℚ) (e : Nat) (h : |x| < 10 ^ e) :
    (fmt2 x).length ≤ e + 5 := by
  have hn : roundHalfEven (|x| * 100) ≤ ((10 ^ (e + 2) : Nat) : ℤ) := by
    apply roundHalfEven_le
    push_cast
    rw [pow_add]
    nlinarith [abs_nonneg x]
  have hn0 : 0 ≤ roundHalfEven (|x| * 100) :=
    roundHalfEven_nonneg _ (mul_nonneg (abs_nonneg x) (by norm_num))
  have hlt : (roundHalfEven (|x| * 100)).toNat / 100 < 10 ^ (e + 1) := by
    have h1 : (roundHalfEven (|x| * 100)).toNat ≤ 10 ^ (e + 2) := by omega
    have h2 : (10 : Nat) ^ (e + 2) = 10 ^ e * 100 := by rw [pow_add]; norm_num
    have h3 : (10 : Nat) ^ (e + 1) = 10 ^ e * 10 := by rw [pow_add]; norm_num
    have h4 : 0 < (10 : Nat) ^ e := Nat.pow_pos (by decide)
    rw [h3]
    rw [h2] at h1
    have : (roundHalfEven (|x| * 100)).toNat / 100 ≤ 10 ^ e :=
      Nat.div_le_of_le_mul (by rw [Nat.mul_comm]; exact h1)
    omega
  have hlen := toDigits_length_le_of_lt _ (e + 1) (Nat.succ_pos e) hlt
  simp only [fmt2, List.length_append, List.length_cons, List.length_nil]
  split_ifs <;> simp only [List.length_cons, List.length_nil] <;> omega

theorem scan_lf_space (s : List Char) : scan_lf (' ' :: s) = scan_lf s := by
  simp only [scan_lf, List.dropWhile_cons, show isspace ' ' = true from by decide, if_true]

theorem scan_lf_dropWhile (s : List Char) : scan_lf (s.dropWhile isspace) = scan_lf s := by
  simp only [scan_lf, dropWhile_isspace_idem]

theorem round2_of_two_decimals (x : ℚ) (k : ℤ) (h : x = (k : ℚ) / 100) : round2 x = x := by
  have habs : |x| * 100 = ((|k| : ℤ) : ℚ) := by
    rw [h, abs_div, Int.cast_abs]
    norm_num
  have hr : roundHalfEven (|x| * 100) = |k| := by
    rw [habs, roundHalfEven_intCast]
  rw [round2, hr]
  by_cases hneg : x < 0
  · have hk : k < 0 := by
      rw [h] at hneg
      have : (k : ℚ) < 0 := by
        by_contra hc
        push_neg at hc
        have : (0 : ℚ) ≤ (k : ℚ) / 100 := div_nonneg hc (by norm_num)
        linarith
      exact_mod_cast this
    rw [if_pos hneg, abs_of_neg hk, h]
    push_cast
    ring
  · have hk : 0 ≤ k := by
      rw [h] at hneg
      have : (0 : ℚ) ≤ (k : ℚ) := by
        by_contra hc
        push_neg at hc
        have : (k : ℚ) / 100 < 0 := div_neg_of_neg_of_pos hc (by norm_num)
        exact hneg this
      exact_mod_cast this
    rw [if_neg hneg, abs_of_nonneg hk, h]
    ring

/-- The `double` nearest to a two-decimal value of moderate size is printed by `%.2f` as that
value. -/
theorem round2_fl_two_decimals (k : ℤ) (hk : |k| ≤ 10 ^ 15) :
    round2 (fl ((k : ℚ) / 100)) = (k : ℚ) / 100 := by
  by_cases hk0 : k = 0
  · subst hk0
    simp [fl_zero, round2, roundHalfEven_intCast 0]
    exact roundHalfEven_intCast 0
  have hkq : |(k : ℚ)| ≤ 10 ^ 15 := by exact_mod_cast hk
  have hq0 : (k : ℚ) / 100 ≠ 0 := div_ne_zero (by exact_mod_cast hk0) (by norm_num)
  have hq : |(k : ℚ) / 100| < 2 ^ ((-7 : ℤ) + 53) := by
    rw [abs_div]
    have : (2 : ℚ) ^ ((-7 : ℤ) + 53) = 70368744177664 := by norm_num
    rw [this, div_lt_iff₀ (by norm_num)]
    have h100 : |(100 : ℚ)| = 100 := by norm_num
    rw [h100]
    exact lt_of_le_of_lt hkq (by norm_num)
  have hulp := ulp_le_of_abs_lt _ hq0 (-7) (by norm_num) hq
  have herr := abs_fl_sub_le ((k : ℚ) / 100)
  have c7 : (2 : ℚ) ^ (-7 : ℤ) = 1 / 128 := by norm_num
  rw [c7] at hulp
  set x := fl ((k : ℚ) / 100) with hx
  have hclose : |x * 100 - (k : ℚ)| < 1 / 2 := by
    have e : x * 100 - (k : ℚ) = (x - (k : ℚ) / 100) * 100 := by ring
    rw [e, abs_mul]
    have h100 : |(100 : ℚ)| = 100 := by norm_num
    rw [h100]
    linarith
  have hround : roundHalfEven (|x| * 100) = |k| := by
    apply roundHalfEven_eq_of_abs_lt
    have h1 := abs_abs_sub_abs_le (x * 100) (k : ℚ)
    have h2 : |x * 100| = |x| * 100 := by
      rw [abs_mul]; norm_num
    rw [h2] at h1
    rw [Int.cast_abs]
    exact lt_of_le_of_lt h1 hclose
  obtain ⟨c1, c2⟩ := abs_lt.1 hclose
  rw [round2, hround]
  rcases lt_or_gt_of_ne hk0 with hneg | hpos
  · have hk1 : (k : ℚ) ≤ -1 := by exact_mod_cast (by omega : k ≤ -1)
    have hxneg : x < 0 := by linarith
    rw [if_pos hxneg, abs_of_neg hneg]
    push_cast
    ring
  · have hk1 : (1 : ℚ) ≤ (k : ℚ) := by exact_mod_cast (by omega : 1 ≤ k)
    have hxpos : ¬ x < 0 := by
      push_neg
      linarith
    rw [if_neg hxpos, abs_of_pos hpos]
    ring

/-- Parsing the message of the worker gives, for each field, the `double` nearest to the
field rounded to two decimals. -/
theorem sscanf_snprintf_memory (m entry : MemoryStats)
    (h1 : |m.phys_used| < 10 ^ 200) (h2 : |m.phys_total| < 10 ^ 200)
    (h3 : |m.virt_used| < 10 ^ 200) (h4 : |m.virt_total| < 10 ^ 200) :
    sscanf_memory (snprintf_memory m) entry
      = { phys_used := fl (round2 m.phys_used), phys_total := fl (round2 m.phys_total),
          virt_used := fl (round2 m.virt_used), virt_total := fl (round2 m.virt_total) } := by
  have l1 := fmt2_length_le_of_abs _ 200 h1
  have l2 := fmt2_length_le_of_abs _ 200 h2
  have l3 := fmt2_length_le_of_abs _ 200 h3
  have l4 := fmt2_length_le_of_abs _ 200 h4
  have hsp : (" ".toList) = [' '] := rfl
  have htake : snprintf_memory m
      = fmt2 m.phys_used ++ (' ' :: (fmt2 m.phys_total ++ (' ' :: (fmt2 m.virt_used
          ++ (' ' :: (fmt2 m.virt_total ++ [])))))) := by
    unfold snprintf_memory
    rw [List.take_of_length_le]
    · simp [hsp]
    · simp only [List.length_append, hsp, List.length_cons, List.length_nil]
      omega
  have hnd : ∀ t : List Char, NoLeadingDigit (' ' :: t) :=
    fun t => noLeadingDigit_cons t (by decide)
  rw [htake]
  simp only [sscanf_memory, scan_lf_fmt2 _ _ (hnd _), scan_lf_dropWhile, scan_lf_space,
    scan_lf_fmt2 _ _ noLeadingDigit_nil]

/-! ## Theorems: memory channel -/

/-- C12 as stated fails: the message buffer holds 1023 characters, so for a sample whose four
fields are `2 ^ 1000` (a `double`, written with 302 digits and two decimals) the text of the
fourth field is cut off and the parent reads a number below `10 ^ 105` for it. -/
theorem memory_channel_roundtrip_counterexample :
    fl ((2 : ℚ) ^ 1000) = 2 ^ 1000
      ∧ (sscanf_memory (snprintf_memory ⟨2 ^ 1000, 2 ^ 1000, 2 ^ 1000, 2 ^ 1000⟩)
        ⟨0, 0, 0, 0⟩).virt_used = 2 ^ 1000
      ∧ (sscanf_memory (snprintf_memory ⟨2 ^ 1000, 2 ^ 1000, 2 ^ 1000, 2 ^ 1000⟩)
        ⟨0, 0, 0, 0⟩).virt_total < 10 ^ 105
      ∧ (sscanf_memory (snprintf_memory ⟨2 ^ 1000, 2 ^ 1000, 2 ^ 1000, 2 ^ 1000⟩)
        ⟨0, 0, 0, 0⟩).virt_total ≠ round2 (2 ^ 1000) := by
  decide!

/-- C12 (amended): for every sample whose fields are below `10 ^ 200` in magnitude (the message
then fits the 1024-byte buffer; the collector only produces fields up to `2 ^ 34`), parsing the
message written for it yields, for each field, the `double` nearest to the field rounded to two
decimals; and a sample whose fields are the `double` values nearest to two-decimal values
`k / 100` with `|k| ≤ 10 ^ 15` comes back unchanged. -/
theorem memory_channel_roundtrip (m entry : MemoryStats)
    (h1 : |m.phys_used| < 10 ^ 200) (h2 : |m.phys_total| < 10 ^ 200)
    (h3 : |m.virt_used| < 10 ^ 200) (h4 : |m.virt_total| < 10 ^ 200) :
    sscanf_memory (snprintf_memory m) entry
        = { phys_used := fl (round2 m.phys_used), phys_total := fl (round2 m.phys_total),
            virt_used := fl (round2 m.virt_used), virt_total := fl (round2 m.virt_total) }
      ∧ ((∃ k : ℤ, |k| ≤ 10 ^ 15 ∧ m.phys_used = fl ((k : ℚ) / 100)) →
          (∃ k : ℤ, |k| ≤ 10 ^ 15 ∧ m.phys_total = fl ((k : ℚ) / 100)) →
          (∃ k : ℤ, |k| ≤ 10 ^ 15 ∧ m.virt_used = fl ((k : ℚ) / 100)) →
          (∃ k : ℤ, |k| ≤ 10 ^ 15 ∧ m.virt_total = fl ((k : ℚ) / 100)) →
          sscanf_memory (snprintf_memory m) entry = m) := by
  have hmain := sscanf_snprintf_memory m entry h1 h2 h3 h4
  refine ⟨hmain, ?_⟩
  rintro ⟨k1, b1, e1⟩ ⟨k2, b2, e2⟩ ⟨k3, b3, e3⟩ ⟨k4, b4, e4⟩
  rw [hmain]
  have r1 : fl (round2 m.phys_used) = m.phys_used := by
    rw [e1, round2_fl_two_decimals k1 b1]
  have r2 : fl (round2 m.phys_total) = m.phys_total := by
    rw [e2, round2_fl_two_decimals k2 b2]
  have r3 : fl (round2 m.virt_used) = m.virt_used := by
    rw [e3, round2_fl_two_decimals k3 b3]
  have r4 : fl (round2 m.virt_total) = m.virt_total := by
    rw [e4, round2_fl_two_decimals k4 b4]
  rw [r1, r2, r3, r4]

/-- Witness for C12: the sample `6, 8, 6.123, 10` (its third field the `double` nearest to
6.123) comes back as `6, 8, 6.12, 10` (the third field the `double` nearest to 6.12), and the
latter sample comes back unchanged. -/
theorem memory_channel_roundtrip_witness :
    sscanf_memory (snprintf_memory ⟨6, 8, fl (6123 / 1000), 10⟩) ⟨0, 0, 0, 0⟩
        = ⟨6, 8, fl (612 / 100), 10⟩
      ∧ sscanf_memory (snprintf_memory ⟨6, 8, fl (612 / 100), 10⟩) ⟨0, 0, 0, 0⟩
        = ⟨6, 8, fl (612 / 100), 10⟩ := by
  constructor
  · rw [(memory_channel_roundtrip ⟨6, 8, fl (6123 / 1000), 10⟩ ⟨0, 0, 0, 0⟩ (by decide!)
      (by decide!) (by decide!) (by decide!)).1]
    decide!
  · exact (memory_channel_roundtrip ⟨6, 8, fl (612 / 100), 10⟩ ⟨0, 0, 0, 0⟩ (by decide!)
      (by decide!) (by decide!) (by decide!)).2
      ⟨600, by decide, by decide!⟩ ⟨800, by decide, by decide!⟩ ⟨612, by decide, by decide!⟩
      ⟨1000, by decide, by decide!⟩

/-- A byte count in gigabytes is at most `2 ^ 34`. -/
theorem ulong_field_bound (n : Nat) (h : n < ULONG_MOD) :
    |double_mul (ulong_to_double n) bytes_to_gb| < 10 ^ 200 := by
  have hn : (n : ℚ) < 2 ^ 64 := by exact_mod_cast h
  have hn0 : (0 : ℚ) ≤ (n : ℚ) := Nat.cast_nonneg n
  have e64 : ((1 : ℤ) : ℚ) * 2 ^ (64 : ℤ) = 2 ^ 64 := by norm_num
  have e34 : ((1 : ℤ) : ℚ) * 2 ^ (34 : ℤ) = 2 ^ 34 := by norm_num
  have s1 : fl (n : ℚ) ≤ 2 ^ 64 := by
    have := fl_le_of (n : ℚ) 1 64 (by norm_num)
      (by rw [abs_of_nonneg hn0]; exact lt_trans hn (by norm_num))
      (by rw [e64]; exact hn.le)
    rw [e64] at this
    exact this
  have s0 : 0 ≤ fl (n : ℚ) := fl_nonneg _ hn0
  have q0 : 0 ≤ fl (n : ℚ) / 1024 ^ 3 := div_nonneg s0 (by norm_num)
  have q1 : fl (n : ℚ) / 1024 ^ 3 ≤ 2 ^ 34 := by
    rw [div_le_iff₀ (by norm_num)]
    have : (2 : ℚ) ^ 34 * 1024 ^ 3 = 2 ^ 64 := by norm_num
    rw [this]
    exact s1
  have s2 : fl (fl (n : ℚ) / 1024 ^ 3) ≤ 2 ^ 34 := by
    have := fl_le_of (fl (n : ℚ) / 1024 ^ 3) 1 34 (by norm_num)
      (by rw [abs_of_nonneg q0]; exact lt_of_le_of_lt q1 (by norm_num))
      (by rw [e34]; exact q1)
    rw [e34] at this
    exact this
  rw [gb_eq, abs_of_nonneg (fl_nonneg _ q0)]
  exact lt_of_le_of_lt s2 (by norm_num)

/-- The array of the parent after `launchMemoryStatsProcess`: the entry of the current sample
holds, for each gathered figure, the `double` nearest to the figure rounded to two decimals. -/
theorem launchMemoryStatsProcess_array (info : SysInfo) (arr : Nat → MemoryStats)
    (samples currentSample : Nat) (s g : Bool) (prev : ℚ)
    (htr : info.totalram < ULONG_MOD) :
    ∃ child parent out, gather_memory_stats (some info) arr currentSample = .ok child
      ∧ launchMemoryStatsProcess (some info) arr samples currentSample s g prev
          = .ok (parent, out)
      ∧ parent currentSample
          = { phys_used := fl (round2 (child currentSample).phys_used),
              phys_total := fl (round2 (child currentSample).phys_total),
              virt_used := fl (round2 (child currentSample).virt_used),
              virt_total := fl (round2 (child currentSample).virt_total) }
      ∧ ∀ j, j ≠ currentSample → parent j = arr j := by
  refine ⟨_, _, _, rfl, rfl, ?_, ?_⟩
  · rw [Function.update_same]
    apply sscanf_snprintf_memory
    · simp only [Function.update_same]
      exact ulong_field_bound _ (ulong_sub_lt _ _)
    · simp only [Function.update_same]
      exact ulong_field_bound _ htr
    · simp only [Function.update_same]
      exact ulong_field_bound _ (ulong_sub_lt _ _)
    · simp only [Function.update_same]
      exact ulong_field_bound _ (Nat.mod_lt _ (by decide))
  · intro j hj
    exact Function.update_noteq hj _ _

/-! ## Theorems: user sessions -/

theorem dropWhile_length_le (p : Char → Bool) (l : List Char) :
    (l.dropWhile p).length ≤ l.length := by
  induction l with
  | nil => simp
  | cons a l ih =>
    simp only [List.dropWhile_cons]
    split_ifs
    · simp only [List.length_cons]; omega
    · exact le_refl _

theorem takeWhile_length_le (p : Char → Bool) (l : List Char) :
    (l.takeWhile p).length ≤ l.length := by
  induction l with
  | nil => simp
  | cons a l ih =>
    simp only [List.takeWhile_cons]
    split_ifs
    · simp only [List.length_cons]; omega
    · simp

/-- A successful conversion `%Ns` consumes input. -/
theorem scan_s_length {width : Nat} {s word rest : List Char}
    (h : scan_s width s = some (word, rest)) : rest.length < s.length := by
  simp only [scan_s] at h
  split_ifs at h with hw
  simp only [Option.some.injEq, Prod.mk.injEq] at h
  obtain ⟨h1, h2⟩ := h
  have hpos : 0 < word.length := by
    rw [← h1]; exact List.length_pos.2 hw
  have hle : word.length ≤ (s.dropWhile isspace).length := by
    rw [← h1]
    refine le_trans ?_ (takeWhile_length_le (fun c => !isspace c) _)
    rw [List.length_take]
    exact Nat.min_le_right _ _
  have hd := dropWhile_length_le isspace s
  rw [← h2, List.length_drop, h1]
  omega

/-- The bound on the iterations of the parent's loop is never reached: beyond the length of
the stream, more iterations allowed give the same list. -/
theorem readUserEntries_fuel (fuel : Nat) : ∀ (stream : List Char) (head : List UserNode),
    stream.length < fuel → ∀ extra : Nat,
      readUserEntries (fuel + extra) stream head = readUserEntries fuel stream head := by
  induction fuel with
  | zero => intro stream head h; omega
  | succ fuel ih =>
    intro stream head hlen extra
    have e : fuel + 1 + extra = (fuel + extra) + 1 := by omega
    rw [e]
    simp only [readUserEntries]
    cases h1 : scan_s 255 stream with
    | none => rfl
    | some p1 =>
      obtain ⟨username, r1⟩ := p1
      simp only
      cases h2 : scan_s 31 (r1.dropWhile isspace) with
      | none => rfl
      | some p2 =>
        obtain ⟨utmp_line, r2⟩ := p2
        simp only
        cases h3 : scan_s 255 (r2.dropWhile isspace) with
        | none => rfl
        | some p3 =>
          obtain ⟨hostname, r3⟩ := p3
          simp only
          apply ih
          have l1 := scan_s_length h1
          have l2 := scan_s_length h2
          have l3 := scan_s_length h3
          have d1 := dropWhile_length_le isspace r1
          have d2 := dropWhile_length_le isspace r2
          have d3 := dropWhile_length_le isspace r3
          omega

/-- C11 fails on the code: for a table with the single user-process entry `alice`, `tty1` and
an empty host the list returned is empty, where the specification has one session; when an
entry `bob`, `pts/0`, `10.0.0.5` follows, the list is the single session `alice`, `tty1`,
`bob`. -/
theorem user_sessions_empty_host :
    launchUserStatsProcess [⟨USER_PROCESS, "alice".toList, "tty1".toList, []⟩] = []
      ∧ specUserSessions [⟨USER_PROCESS, "alice".toList, "tty1".toList, []⟩]
          = [⟨"alice".toList, "tty1".toList, []⟩]
      ∧ launchUserStatsProcess
          [⟨USER_PROCESS, "alice".toList, "tty1".toList, []⟩,
            ⟨USER_PROCESS, "bob".toList, "pts/0".toList, "10.0.0.5".toList⟩]
          = [⟨"alice".toList, "tty1".toList, "bob".toList⟩] := by
  decide

theorem writeUserEntries_loop (table : List Utmp) : ∀ out : List Char,
    table.foldl (fun out u =>
      if u.ut_type = USER_PROCESS then
        out ++ u.ut_user ++ " ".toList ++ u.ut_line ++ " ".toList ++ u.ut_host ++ "\n".toList
      else out) out
      = out ++ ((table.filter (fun u => u.ut_type = USER_PROCESS)).map userLine).flatten := by
  induction table with
  | nil => intro out; simp
  | cons u t ih =>
    intro out
    by_cases hu : u.ut_type = USER_PROCESS
    · simp only [List.foldl_cons, hu, if_true, ih, List.filter_cons, decide_True,
        List.map_cons, List.flatten_cons, userLine]
      simp
    · simp only [List.foldl_cons, hu, if_false, ih, List.filter_cons, decide_False]
      simp

theorem writeUserEntries_eq (table : List Utmp) :
    writeUserEntries table
      = ((table.filter (fun u => u.ut_type = USER_PROCESS)).map userLine).flatten := by
  unfold writeUserEntries
  rw [writeUserEntries_loop]
  simp

theorem takeWhile_notspace_append (w rest : List Char) (hw : ∀ c ∈ w, isspace c = false)
    (c : Char) (hc : isspace c = true) :
    (w ++ c :: rest).takeWhile (fun c => !isspace c) = w := by
  induction w with
  | nil => simp [List.takeWhile_cons, hc]
  | cons a w ih =>
    have ha : isspace a = false := hw a (List.mem_cons_self _ _)
    simp only [List.cons_append, List.takeWhile_cons, ha, Bool.not_false, if_true]
    rw [ih (fun d hd => hw d (List.mem_cons_of_mem _ hd))]

/-- Reading a word that is followed by white space. -/
theorem scan_s_word (width : Nat) (w rest : List Char) (hne : w ≠ [])
    (hlen : w.length ≤ width) (hw : ∀ c ∈ w, isspace c = false) (c : Char)
    (hc : isspace c = true) :
    scan_s width (w ++ c :: rest) = some (w, c :: rest) := by
  obtain ⟨a, w', rfl⟩ := List.exists_cons_of_ne_nil hne
  have ha : isspace a = false := hw a (List.mem_cons_self _ _)
  have hdrop : ((a :: w') ++ c :: rest).dropWhile isspace = (a :: w') ++ c :: rest := by
    simp [List.dropWhile_cons, ha]
  have htake := takeWhile_notspace_append (a :: w') rest hw c hc
  simp only [scan_s, hdrop, htake, List.take_of_length_le hlen]
  simp

theorem dropWhile_isspace_word (w rest : List Char) (hne : w ≠ [])
    (hw : ∀ c ∈ w, isspace c = false) : (w ++ rest).dropWhile isspace = w ++ rest := by
  obtain ⟨a, w', rfl⟩ := List.exists_cons_of_ne_nil hne
  have ha : isspace a = false := hw a (List.mem_cons_self _ _)
  simp [List.dropWhile_cons, ha]

theorem dropWhile_isspace_lines (entries : List Utmp) (h : ∀ u ∈ entries, u.Plain) :
    ((entries.map userLine).flatten).dropWhile isspace = (entries.map userLine).flatten := by
  cases entries with
  | nil => rfl
  | cons u t =>
    obtain ⟨⟨hne, -, hw⟩, -, -⟩ := h u (List.mem_cons_self _ _)
    simp only [List.map_cons, List.flatten_cons, userLine, List.append_assoc]
    exact dropWhile_isspace_word _ _ hne hw

/-- The parent's loop on the lines of plain entries. -/
theorem readUserEntries_lines (entries : List Utmp) (h : ∀ u ∈ entries, u.Plain) :
    ∀ (fuel : Nat) (head : List UserNode), entries.length < fuel →
      readUserEntries fuel ((entries.map userLine).flatten) head
        = head ++ entries.map (fun u => ⟨u.ut_user, u.ut_line, u.ut_host⟩) := by
  induction entries with
  | nil =>
    intro fuel head hf
    cases fuel with
    | zero => simp at hf
    | succ fuel => simp [readUserEntries, scan_s]
  | cons u t ih =>
    intro fuel head hf
    cases fuel with
    | zero => simp at hf
    | succ fuel =>
      have hu := h u (List.mem_cons_self _ _)
      obtain ⟨⟨hne1, hl1, hw1⟩, ⟨hne2, hl2, hw2⟩, ⟨hne3, hl3, hw3⟩⟩ := hu
      have ht : ∀ v ∈ t, v.Plain := fun v hv => h v (List.mem_cons_of_mem _ hv)
      have hsp : isspace ' ' = true := by decide
      have hnl : isspace '\n' = true := by decide
      have e1 : (userLine u ++ (t.map userLine).flatten)
          = u.ut_user ++ ' ' :: (u.ut_line ++ ' ' :: (u.ut_host ++ '\n'
              :: (t.map userLine).flatten)) := by
        simp [userLine]
      have s1 := scan_s_word 255 u.ut_user
        (u.ut_line ++ ' ' :: (u.ut_host ++ '\n' :: (t.map userLine).flatten)) hne1
        (le_trans hl1 (by decide)) hw1 ' ' hsp
      have d1 : (' ' :: (u.ut_line ++ ' ' :: (u.ut_host ++ '\n'
            :: (t.map userLine).flatten))).dropWhile isspace
          = u.ut_line ++ ' ' :: (u.ut_host ++ '\n' :: (t.map userLine).flatten) := by
        rw [List.dropWhile_cons, if_pos hsp]
        exact dropWhile_isspace_word _ _ hne2 hw2
      have s2 := scan_s_word 31 u.ut_line (u.ut_host ++ '\n' :: (t.map userLine).flatten)
        hne2 hl2 hw2 ' ' hsp
      have d2 : (' ' :: (u.ut_host ++ '\n' :: (t.map userLine).flatten)).dropWhile isspace
          = u.ut_host ++ '\n' :: (t.map userLine).flatten := by
        rw [List.dropWhile_cons, if_pos hsp]
        exact dropWhile_isspace_word _ _ hne3 hw3
      have s3 := scan_s_word 255 u.ut_host ((t.map userLine).flatten) hne3 hl3 hw3 '\n' hnl
      have d3 : ('\n' :: (t.map userLine).flatten).dropWhile isspace
          = (t.map userLine).flatten := by
        rw [List.dropWhile_cons, if_pos hnl]
        exact dropWhile_isspace_lines t ht
      have ha : append_user head u.ut_user u.ut_line u.ut_host
          = head ++ [⟨u.ut_user, u.ut_line, u.ut_host⟩] := by
        simp only [append_user]
        rw [List.take_of_length_le (by omega), List.take_of_length_le (by omega),
          List.take_of_length_le (by omega)]
      simp only [List.map_cons, List.flatten_cons, e1, readUserEntries, s1, d1, s2, d2, s3, d3,
        ha]
      rw [ih ht fuel _ (by simpa using hf)]
      simp

/-- On tables whose user-process entries have three non-empty fields without white space,
each terminated inside its array, `launchUserStatsProcess` returns one session per such entry,
in order. -/
theorem launchUserStatsProcess_plain (table : List Utmp)
    (h : ∀ u ∈ table, u.ut_type = USER_PROCESS → u.Plain) :
    launchUserStatsProcess table = specUserSessions table := by
  have hf : ∀ u ∈ table.filter (fun u => u.ut_type = USER_PROCESS), u.Plain := by
    intro u hu
    have := List.mem_filter.1 hu
    exact h u this.1 (by simpa using this.2)
  unfold launchUserStatsProcess specUserSessions
  rw [writeUserEntries_eq]
  rw [readUserEntries_lines _ hf]
  · simp
  · have hlen : ∀ entries : List Utmp, (∀ u ∈ entries, u.Plain) →
        entries.length ≤ ((entries.map userLine).flatten).length := by
      intro entries
      induction entries with
      | nil => intro _; simp
      | cons u t ih =>
        intro hp
        have := ih (fun v hv => hp v (List.mem_cons_of_mem _ hv))
        simp only [List.map_cons, List.flatten_cons, List.length_append, List.length_cons,
          userLine]
        have h1 : ("\n".toList).length = 1 := by decide
        omega
    have := hlen _ hf
    omega

end SystemMonitor
